import Mathlib

/-!
Verification development for the wexample filestate-python source-rewriting
engine.  The Python code operates on libcst concrete syntax trees; here the
relevant fragment of the tree and every pass under review are embedded as
executable Lean definitions, translated operation by operation from the
Python sources:

  * utils/relocate_imports/python_parser_import_index.py
  * utils/relocate_imports/python_usage_collector.py
  * utils/relocate_imports/python_runtime_symbol_collector.py
  * utils/relocate_imports/python_import_rewriter.py
  * utils/relocate_imports/python_localize_runtime_imports.py
  * option/python/relocate_imports_option.py        (the driver wiring them)
  * operation/python_relocate_imports_operation.py  (self-contained variant)
  * utils/python_constants_utils.py
  * utils/python_class_methods_utils.py
  * operation/python_order_constants_operation.py   (parse guard skeleton)

Modelling conventions, fixed once here:
  * libcst Name / Attribute / Call / Subscript / BinaryOperation / List /
    SimpleString expressions are modelled; Dict, Tuple, keyword arguments
    and lambda are omitted (no claim depends on them).
  * Python sets and dicts are modelled by insertion-ordered duplicate-free
    lists; only membership and per-key content are relied upon in proofs,
    and concrete theorems are evaluated on inputs where iteration order is
    forced (single key or single element).
  * Python sorted(...) is a stable ascending sort and is modelled by
    List.insertionSort with the matching key relation.
  * libcst has no AsyncFunctionDef node class: an async def is a
    FunctionDef whose asynchronous field is set, so every
    visit_AsyncFunctionDef / leave_AsyncFunctionDef method in the Python
    code is dead and async functions flow through the FunctionDef
    handlers.  The model therefore has a single funcDef statement form.
  * Removal semantics of libcst transformers are modelled exactly: a small
    statement removed from a SimpleStatementLine leaves the line, and a
    line whose body became empty is dropped from the enclosing body
    sequence (libcst visit_body_sequence discards emptied lines).
-/

namespace FilestatePython

/-! ## Concrete syntax tree model -/

/-- Expression fragment of the libcst tree used by the collectors. -/
inductive Expr where
  | ename (s : String)
  | attr (value : Expr) (field : String)
  | call (func : Expr) (args : List Expr)
  | subscript (value : Expr) (slices : List Expr)
  | binop (left right : Expr)
  | listExpr (elements : List Expr)
  | simpleString (s : String)

mutual

/-- Hand-rolled decidable equality for the nested inductive `Expr`. -/
def Expr.decEq : (a b : Expr) → Decidable (a = b)
  | .ename a, .ename b =>
    if h : a = b then isTrue (by rw [h]) else
      isFalse (by intro he; injection he with h1; exact h h1)
  | .attr v1 f1, .attr v2 f2 =>
    match Expr.decEq v1 v2 with
    | isTrue hv =>
      if h : f1 = f2 then isTrue (by rw [hv, h]) else
        isFalse (by intro he; injection he with h1 h2; exact h h2)
    | isFalse hv => isFalse (by intro he; injection he with h1 h2; exact hv h1)
  | .call f1 a1, .call f2 a2 =>
    match Expr.decEq f1 f2, Expr.decEqList a1 a2 with
    | isTrue h1, isTrue h2 => isTrue (by rw [h1, h2])
    | isFalse h1, _ => isFalse (by intro he; injection he with g1 g2; exact h1 g1)
    | _, isFalse h2 => isFalse (by intro he; injection he with g1 g2; exact h2 g2)
  | .subscript v1 s1, .subscript v2 s2 =>
    match Expr.decEq v1 v2, Expr.decEqList s1 s2 with
    | isTrue h1, isTrue h2 => isTrue (by rw [h1, h2])
    | isFalse h1, _ => isFalse (by intro he; injection he with g1 g2; exact h1 g1)
    | _, isFalse h2 => isFalse (by intro he; injection he with g1 g2; exact h2 g2)
  | .binop l1 r1, .binop l2 r2 =>
    match Expr.decEq l1 l2, Expr.decEq r1 r2 with
    | isTrue h1, isTrue h2 => isTrue (by rw [h1, h2])
    | isFalse h1, _ => isFalse (by intro he; injection he with g1 g2; exact h1 g1)
    | _, isFalse h2 => isFalse (by intro he; injection he with g1 g2; exact h2 g2)
  | .listExpr e1, .listExpr e2 =>
    match Expr.decEqList e1 e2 with
    | isTrue h1 => isTrue (by rw [h1])
    | isFalse h1 => isFalse (by intro he; injection he with g1; exact h1 g1)
  | .simpleString a, .simpleString b =>
    if h : a = b then isTrue (by rw [h]) else
      isFalse (by intro he; injection he with h1; exact h h1)
  | .ename _, .attr _ _ => isFalse (fun h => Expr.noConfusion h)
  | .ename _, .call _ _ => isFalse (fun h => Expr.noConfusion h)
  | .ename _, .subscript _ _ => isFalse (fun h => Expr.noConfusion h)
  | .ename _, .binop _ _ => isFalse (fun h => Expr.noConfusion h)
  | .ename _, .listExpr _ => isFalse (fun h => Expr.noConfusion h)
  | .ename _, .simpleString _ => isFalse (fun h => Expr.noConfusion h)
  | .attr _ _, .ename _ => isFalse (fun h => Expr.noConfusion h)
  | .attr _ _, .call _ _ => isFalse (fun h => Expr.noConfusion h)
  | .attr _ _, .subscript _ _ => isFalse (fun h => Expr.noConfusion h)
  | .attr _ _, .binop _ _ => isFalse (fun h => Expr.noConfusion h)
  | .attr _ _, .listExpr _ => isFalse (fun h => Expr.noConfusion h)
  | .attr _ _, .simpleString _ => isFalse (fun h => Expr.noConfusion h)
  | .call _ _, .ename _ => isFalse (fun h => Expr.noConfusion h)
  | .call _ _, .attr _ _ => isFalse (fun h => Expr.noConfusion h)
  | .call _ _, .subscript _ _ => isFalse (fun h => Expr.noConfusion h)
  | .call _ _, .binop _ _ => isFalse (fun h => Expr.noConfusion h)
  | .call _ _, .listExpr _ => isFalse (fun h => Expr.noConfusion h)
  | .call _ _, .simpleString _ => isFalse (fun h => Expr.noConfusion h)
  | .subscript _ _, .ename _ => isFalse (fun h => Expr.noConfusion h)
  | .subscript _ _, .attr _ _ => isFalse (fun h => Expr.noConfusion h)
  | .subscript _ _, .call _ _ => isFalse (fun h => Expr.noConfusion h)
  | .subscript _ _, .binop _ _ => isFalse (fun h => Expr.noConfusion h)
  | .subscript _ _, .listExpr _ => isFalse (fun h => Expr.noConfusion h)
  | .subscript _ _, .simpleString _ => isFalse (fun h => Expr.noConfusion h)
  | .binop _ _, .ename _ => isFalse (fun h => Expr.noConfusion h)
  | .binop _ _, .attr _ _ => isFalse (fun h => Expr.noConfusion h)
  | .binop _ _, .call _ _ => isFalse (fun h => Expr.noConfusion h)
  | .binop _ _, .subscript _ _ => isFalse (fun h => Expr.noConfusion h)
  | .binop _ _, .listExpr _ => isFalse (fun h => Expr.noConfusion h)
  | .binop _ _, .simpleString _ => isFalse (fun h => Expr.noConfusion h)
  | .listExpr _, .ename _ => isFalse (fun h => Expr.noConfusion h)
  | .listExpr _, .attr _ _ => isFalse (fun h => Expr.noConfusion h)
  | .listExpr _, .call _ _ => isFalse (fun h => Expr.noConfusion h)
  | .listExpr _, .subscript _ _ => isFalse (fun h => Expr.noConfusion h)
  | .listExpr _, .binop _ _ => isFalse (fun h => Expr.noConfusion h)
  | .listExpr _, .simpleString _ => isFalse (fun h => Expr.noConfusion h)
  | .simpleString _, .ename _ => isFalse (fun h => Expr.noConfusion h)
  | .simpleString _, .attr _ _ => isFalse (fun h => Expr.noConfusion h)
  | .simpleString _, .call _ _ => isFalse (fun h => Expr.noConfusion h)
  | .simpleString _, .subscript _ _ => isFalse (fun h => Expr.noConfusion h)
  | .simpleString _, .binop _ _ => isFalse (fun h => Expr.noConfusion h)
  | .simpleString _, .listExpr _ => isFalse (fun h => Expr.noConfusion h)

/-- Decidable equality for lists of expressions. -/
def Expr.decEqList : (a b : List Expr) → Decidable (a = b)
  | [], [] => isTrue rfl
  | [], _ :: _ => isFalse (fun h => List.noConfusion h)
  | _ :: _, [] => isFalse (fun h => List.noConfusion h)
  | x :: xs, y :: ys =>
    match Expr.decEq x y, Expr.decEqList xs ys with
    | isTrue h1, isTrue h2 => isTrue (by rw [h1, h2])
    | isFalse h1, _ => isFalse (by intro he; injection he with g1 g2; exact h1 g1)
    | _, isFalse h2 => isFalse (by intro he; injection he with g1 g2; exact h2 g2)

end

instance : DecidableEq Expr := Expr.decEq

/-- Alias inside a from-import: Name with an optional asname. -/
structure ImportAliasM where
  nm : String
  asname : Option String
  deriving DecidableEq

/-- Alias inside a bare import: dotted module parts plus optional asname. -/
structure BareAliasM where
  parts : List String
  asname : Option String
  deriving DecidableEq

/-- Small statements that can sit inside a SimpleStatementLine. -/
inductive Small where
  | importFrom (module : Option (List String)) (names : List ImportAliasM)
  | importStar (module : Option (List String))
  | importBare (names : List BareAliasM)
  | annAssign (target : String) (annot : Expr) (value : Option Expr)
  | assign (targets : List String) (value : Expr)
  | exprStmt (e : Expr)
  | ret (e : Option Expr)
  | passStmt
  deriving DecidableEq

/-- Leading trivia line: an EmptyLine, optionally carrying a comment. -/
structure EmptyLineM where
  comment : Option String
  deriving DecidableEq

/-- Function parameter with optional annotation and default. -/
structure ParamM where
  nm : String
  annot : Option Expr
  default : Option Expr
  deriving DecidableEq

/-- Statement level of the tree.  Leading trivia is kept on simple
statement lines (the only place the passes under review read it). -/
inductive Stmt where
  | line (leading : List EmptyLineM) (body : List Small)
  | funcDef (decorators : List Expr) (nm : String) (params : List ParamM)
      (returns : Option Expr) (body : List Stmt)
  | classDef (decorators : List Expr) (nm : String) (bases : List Expr)
      (body : List Stmt)
  | ifStmt (test : Expr) (body : List Stmt)

mutual

/-- Hand-rolled decidable equality for the nested inductive `Stmt`. -/
def Stmt.decEq : (a b : Stmt) → Decidable (a = b)
  | .line l1 b1, .line l2 b2 =>
    if h : l1 = l2 ∧ b1 = b2 then isTrue (by rw [h.1, h.2]) else
      isFalse (by intro he; injection he with g1 g2; exact h ⟨g1, g2⟩)
  | .funcDef d1 n1 p1 r1 b1, .funcDef d2 n2 p2 r2 b2 =>
    match Stmt.decEqList b1 b2 with
    | isTrue hb =>
      if h : d1 = d2 ∧ n1 = n2 ∧ p1 = p2 ∧ r1 = r2 then
        isTrue (by rw [h.1, h.2.1, h.2.2.1, h.2.2.2, hb]) else
        isFalse (by
          intro he; injection he with g1 g2 g3 g4 g5; exact h ⟨g1, g2, g3, g4⟩)
    | isFalse hb =>
      isFalse (by intro he; injection he with g1 g2 g3 g4 g5; exact hb g5)
  | .classDef d1 n1 bs1 b1, .classDef d2 n2 bs2 b2 =>
    match Stmt.decEqList b1 b2 with
    | isTrue hb =>
      if h : d1 = d2 ∧ n1 = n2 ∧ bs1 = bs2 then
        isTrue (by rw [h.1, h.2.1, h.2.2, hb]) else
        isFalse (by
          intro he; injection he with g1 g2 g3 g4; exact h ⟨g1, g2, g3⟩)
    | isFalse hb =>
      isFalse (by intro he; injection he with g1 g2 g3 g4; exact hb g4)
  | .ifStmt t1 b1, .ifStmt t2 b2 =>
    match Stmt.decEqList b1 b2 with
    | isTrue hb =>
      if h : t1 = t2 then isTrue (by rw [h, hb]) else
        isFalse (by intro he; injection he with g1 g2; exact h g1)
    | isFalse hb =>
      isFalse (by intro he; injection he with g1 g2; exact hb g2)
  | .line _ _, .funcDef _ _ _ _ _ => isFalse (fun h => Stmt.noConfusion h)
  | .line _ _, .classDef _ _ _ _ => isFalse (fun h => Stmt.noConfusion h)
  | .line _ _, .ifStmt _ _ => isFalse (fun h => Stmt.noConfusion h)
  | .funcDef _ _ _ _ _, .line _ _ => isFalse (fun h => Stmt.noConfusion h)
  | .funcDef _ _ _ _ _, .classDef _ _ _ _ => isFalse (fun h => Stmt.noConfusion h)
  | .funcDef _ _ _ _ _, .ifStmt _ _ => isFalse (fun h => Stmt.noConfusion h)
  | .classDef _ _ _ _, .line _ _ => isFalse (fun h => Stmt.noConfusion h)
  | .classDef _ _ _ _, .funcDef _ _ _ _ _ => isFalse (fun h => Stmt.noConfusion h)
  | .classDef _ _ _ _, .ifStmt _ _ => isFalse (fun h => Stmt.noConfusion h)
  | .ifStmt _ _, .line _ _ => isFalse (fun h => Stmt.noConfusion h)
  | .ifStmt _ _, .funcDef _ _ _ _ _ => isFalse (fun h => Stmt.noConfusion h)
  | .ifStmt _ _, .classDef _ _ _ _ => isFalse (fun h => Stmt.noConfusion h)

/-- Decidable equality for lists of statements. -/
def Stmt.decEqList : (a b : List Stmt) → Decidable (a = b)
  | [], [] => isTrue rfl
  | [], _ :: _ => isFalse (fun h => List.noConfusion h)
  | _ :: _, [] => isFalse (fun h => List.noConfusion h)
  | x :: xs, y :: ys =>
    match Stmt.decEq x y, Stmt.decEqList xs ys with
    | isTrue h1, isTrue h2 => isTrue (by rw [h1, h2])
    | isFalse h1, _ => isFalse (by intro he; injection he with g1 g2; exact h1 g1)
    | _, isFalse h2 => isFalse (by intro he; injection he with g1 g2; exact h2 g2)

end

instance : DecidableEq Stmt := Stmt.decEq

instance : Inhabited Stmt := ⟨.line [] []⟩

/-- A module is its list of top-level statements. -/
structure ModuleM where
  body : List Stmt
  deriving DecidableEq

/-! ## Shared helpers -/

/-- Membership-preserving insertion used to model Python set.add. -/
def addUniq (x : String) (l : List String) : List String :=
  if x ∈ l then l else l ++ [x]

/-- Model of Python str.isupper on identifiers: at least one letter and no
lowercase letter (ASCII identifiers). -/
def isUpperName (s : String) : Bool :=
  s.data.any Char.isAlpha && s.data.all fun c => !c.isLower

/-- First character uppercase, as in Python's `s[:1].isupper()`. -/
def firstCharUpper (s : String) : Bool :=
  match s.data with
  | [] => false
  | c :: _ => c.isUpper

/-- Lexicographic codepoint comparison on character lists, the semantics
of the Python < operator on strings. -/
def charListLt : List Char → List Char → Bool
  | [], [] => false
  | [], _ :: _ => true
  | _ :: _, [] => false
  | a :: as, b :: bs => a < b || (a = b && charListLt as bs)

/-- Strict codepoint order on strings. -/
def strLtB (a b : String) : Bool := charListLt a.data b.data

/-- Codepoint order on strings (the ordering of Python sorted). -/
def strLeB (a b : String) : Bool := !strLtB b a

/-- ASCII lowercasing, the model of Python str.lower on identifiers. -/
def lowerStr (s : String) : String := (s.data.map Char.toLower).asString

/-- Leading-match test of a needle inside a haystack. -/
def subAtFront : List Char → List Char → Bool
  | [], _ => true
  | _ :: _, [] => false
  | a :: as, b :: bs => a = b && subAtFront as bs

/-- Occurrence test of a needle anywhere inside a haystack. -/
def containsSeq (needle : List Char) : List Char → Bool
  | [] => subAtFront needle []
  | c :: rest => subAtFront needle (c :: rest) || containsSeq needle rest

/-- Substring test, modelling the Python in operator on strings. -/
def strContains (s sub : String) : Bool :=
  containsSeq sub.data s.data

/-- Dotted-name join, the model of flattening a module expression. -/
def joinDots (parts : List String) : String :=
  String.intercalate "." parts

/-- Split on dots, the model of module_str.split applied by
_build_module_expr when rebuilding a module expression. -/
def splitDotsAux : List Char → List Char → List String
  | [], cur => [cur.reverse.asString]
  | c :: rest, cur =>
    if c = '.' then cur.reverse.asString :: splitDotsAux rest []
    else splitDotsAux rest (c :: cur)

/-- Dotted-name split. -/
def splitDots (s : String) : List String := splitDotsAux s.data []

/-- Key relation for plain Python sorted() over strings (codepoint order). -/
def strLe (a b : String) : Prop := strLeB a b = true

instance : DecidableRel strLe :=
  fun a b => inferInstanceAs (Decidable (strLeB a b = true))

/-- Key relation for sorted(..., key=lambda s: s.lower()). -/
def lowerLe (a b : String) : Prop := strLeB (lowerStr a) (lowerStr b) = true

instance : DecidableRel lowerLe :=
  fun a b => inferInstanceAs (Decidable (strLeB (lowerStr a) (lowerStr b) = true))

/-- Python sorted over strings. -/
def pySorted (l : List String) : List String := l.insertionSort strLe

/-- Python sorted with a lowercase key. -/
def pySortedLower (l : List String) : List String := l.insertionSort lowerLe

/-! ## Constants sorting pass (utils/python_constants_utils.py) -/

/-- FLAG_NAME constant of python_constants_utils.py. -/
def flagName : String := "python-constant-sort"

/-- Modelled from the spec: flag_exists comes from the external
wexample_filestate.helpers.flag module (not part of this repository); the
opt-in marker protocol is a dedicated comment naming the pass, written as
a filestate flag comment such as "# filestate: python-constant-sort", so
the test is containment of the flag marker in the comment text. -/
def flagExists (nm comment : String) : Bool :=
  strContains comment ("filestate: " ++ nm)

/-- Translation of _get_simple_assignment_name: a single-small simple
statement line whose target is an UPPER_CASE Name. -/
def getSimpleAssignmentName : Stmt → Option String
  | .line _ [sm] =>
    match sm with
    | .assign [t] _ => if isUpperName t then some t else none
    | .annAssign t _ _ => if isUpperName t then some t else none
    | _ => none
  | _ => none

/-- Translation of _stmt_has_flag: a flag comment among the leading lines. -/
def stmtHasFlag : Stmt → Bool
  | .line leading _ =>
    leading.any fun el =>
      match el.comment with
      | some c => flagExists flagName c
      | none => false
  | _ => false

/-- Translation of _prev_line_has_flag.  In libcst, Module.body and class
bodies contain only statements; EmptyLine trivia is attached to the
following statement, so the previous sibling is never an EmptyLine and
this helper can never return True.  The model records that fact. -/
def prevLineHasFlag (_body : List Stmt) (_i : Nat) : Bool := false

/-- Inner loop of find_flagged_constant_blocks: after the flagged first
statement, keep taking simple constant-assignment lines until a blank
leading line (EmptyLine without comment), a non-constant line, or a
non-simple statement stops the run. -/
def takeConstRun (rest : List Stmt) : List Stmt :=
  rest.takeWhile fun s =>
    match s with
    | .line leading _ =>
      !(leading.any fun el => el.comment = none)
        && (getSimpleAssignmentName s).isSome
    | _ => false

/-- Translation of the scanning loop of find_flagged_constant_blocks,
indexed by the position of the current suffix inside the full body.  The
first argument is structural-recursion fuel; every loop iteration of the
source consumes at least one statement, so fuel equal to the length of the
scanned list (as supplied by findFlaggedConstantBlocks) never runs out. -/
def findFlaggedAux : Nat → List Stmt → Nat → List (Nat × Nat × List Stmt)
  | 0, _, _ => []
  | _ + 1, [], _ => []
  | fuel + 1, s :: rest, i =>
    if (stmtHasFlag s || prevLineHasFlag (s :: rest) i)
        && (getSimpleAssignmentName s).isSome then
      let nodes := s :: takeConstRun rest
      (i, i + nodes.length, nodes)
        :: findFlaggedAux fuel (rest.drop (nodes.length - 1)) (i + nodes.length)
    else
      findFlaggedAux fuel rest (i + 1)

/-- Translation of find_flagged_constant_blocks over a statement list. -/
def findFlaggedConstantBlocks (body : List Stmt) : List (Nat × Nat × List Stmt) :=
  findFlaggedAux body.length body 0

/-- Leading lines of a simple statement line (empty for other nodes). -/
def stmtLeading : Stmt → List EmptyLineM
  | .line leading _ => leading
  | _ => []

/-- Replace the leading lines of a simple statement line. -/
def setLeading (s : Stmt) (leading : List EmptyLineM) : Stmt :=
  match s with
  | .line _ body => .line leading body
  | other => other

/-- Flag comment lines among a leading-lines list. -/
def flagLinesOf (ll : List EmptyLineM) : List EmptyLineM :=
  ll.filter fun el =>
    match el.comment with
    | some c => flagExists flagName c
    | none => false

/-- First nonempty collection of flag lines among the nodes, as collected
by the loop in sort_constants_block. -/
def firstFlagLines : List (List EmptyLineM) → List EmptyLineM
  | [] => []
  | ll :: rest =>
    let fl := flagLinesOf ll
    if fl.isEmpty then firstFlagLines rest else fl

/-- Blank lines preceding the flag comment in the first node, as collected
by sort_constants_block (blanks accumulate, the flag comment stops the
scan, other comments are skipped). -/
def blanksBeforeFlag : List EmptyLineM → List EmptyLineM
  | [] => []
  | el :: rest =>
    match el.comment with
    | none => el :: blanksBeforeFlag rest
    | some c => if flagExists flagName c then [] else blanksBeforeFlag rest

/-- Cleaned leading lines: flag lines and blank lines removed. -/
def cleanedLeading (ll : List EmptyLineM) : List EmptyLineM :=
  ll.filter fun el =>
    match el.comment with
    | some c => !flagExists flagName c
    | none => false

/-- Ordering used by sort_constants_block: case-insensitive on the
assignment name (first component of the pair). -/
def pairLowerLe (a b : String × Stmt) : Prop := lowerLe a.1 b.1

instance : DecidableRel pairLowerLe :=
  fun a b => inferInstanceAs (Decidable (lowerLe a.1 b.1))

/-- The (name, node) pair list built by sort_constants_block from the
assignment nodes of a block. -/
def constPairs (nodes : List Stmt) : List (String × Stmt) :=
  nodes.filterMap fun n => (getSimpleAssignmentName n).map fun nm => (nm, n)

/-- The case-insensitively sorted pair list of sort_constants_block. -/
def sortedConstPairs (nodes : List Stmt) : List (String × Stmt) :=
  (constPairs nodes).insertionSort pairLowerLe

/-- Translation of sort_constants_block.  Python compares nodes by object
identity (is / findIdx by identity); the model uses structural equality,
which coincides on the block contents produced by the finder. -/
def sortConstantsBlock (nodes : List Stmt) : List Stmt :=
  let originalLeadings := nodes.map stmtLeading
  let collectedFlagLines := firstFlagLines originalLeadings
  let pairs : List (String × Stmt) := constPairs nodes
  let sortedPairs := sortedConstPairs nodes
  if sortedPairs.map Prod.snd = pairs.map Prod.snd then nodes
  else
    let firstNodeBlankLines :=
      match originalLeadings with
      | [] => []
      | ll :: _ => blanksBeforeFlag ll
    let cleanedLeadings := originalLeadings.map cleanedLeading
    (sortedPairs.enum.map fun p =>
      let node := p.2.2
      let originalIndex := pairs.findIdx fun q => q.2 = node
      let leading := (cleanedLeadings.get? originalIndex).getD (stmtLeading node)
      let leading :=
        if p.1 = 0 then firstNodeBlankLines ++ collectedFlagLines ++ leading
        else leading
      setLeading node leading)

/-- Slice assignment new_body[s:e] = ns. -/
def spliceReplace (body : List Stmt) (s e : Nat) (ns : List Stmt) : List Stmt :=
  body.take s ++ ns ++ body.drop e

/-- The replacement loop of reorder_flagged_constants, abstracted over
the block list it receives: blocks are processed from last to first (a
right fold), each block replaced by its sorted form when it changed. -/
def reorderWithBlocks (bs : List (Nat × Nat × List Stmt)) (body : List Stmt) :
    List Stmt :=
  bs.foldr
    (fun b acc =>
      let sorted := sortConstantsBlock b.2.2
      if sorted = b.2.2 then acc else spliceReplace acc b.1 b.2.1 sorted)
    body

/-- Translation of reorder_flagged_constants on a statement list. -/
def reorderFlaggedBody (body : List Stmt) : List Stmt :=
  reorderWithBlocks (findFlaggedConstantBlocks body) body

/-- Module-level reorder_flagged_constants. -/
def reorderFlaggedConstants (m : ModuleM) : ModuleM :=
  ⟨reorderFlaggedBody m.body⟩

/-- Translation of reorder_flagged_constants_in_classes: the same block
search and replacement applied inside each top-level class body. -/
def reorderFlaggedConstantsInClasses (m : ModuleM) : ModuleM :=
  ⟨m.body.map fun s =>
    match s with
    | .classDef d nm bs body => .classDef d nm bs (reorderFlaggedBody body)
    | other => other⟩

/-- Translation of reorder_flagged_constants_everywhere. -/
def reorderFlaggedConstantsEverywhere (m : ModuleM) : ModuleM :=
  reorderFlaggedConstantsInClasses (reorderFlaggedConstants m)

/-! ## Class method reordering pass (utils/python_class_methods_utils.py) -/

/-- DUnderGroups table of python_class_methods_utils.py. -/
def dunderGroups : List (List String) :=
  [["__new__", "__init__"],
   ["__repr__", "__str__"],
   ["__lt__", "__le__", "__eq__", "__ne__", "__gt__", "__ge__", "__hash__"],
   ["__bool__"],
   ["__getattribute__", "__getattr__", "__setattr__", "__delattr__"],
   ["__len__", "__iter__", "__getitem__", "__setitem__", "__delitem__"],
   ["__call__"],
   ["__enter__", "__exit__", "__aenter__", "__aexit__"],
   ["__await__", "__aiter__", "__anext__"],
   ["__get__", "__set__", "__delete__", "__getstate__", "__setstate__"]]

/-- Lookup in the _DUNDER_ORDER map: (group index, index within group),
defaulting to (999, 999). -/
def dunderOrder (nm : String) : Nat × Nat :=
  let hits := dunderGroups.enum.filterMap fun g =>
    (g.2.enum.find? fun p => p.2 = nm).map fun p => (g.1, p.1)
  hits.headD (999, 999)

/-- Double-underscore test at the front of a character list. -/
def twoUnderscoresAhead : List Char → Bool
  | '_' :: '_' :: _ => true
  | _ => false

/-- Single-underscore test at the front of a string. -/
def underscoreAhead (nm : String) : Bool :=
  match nm.data with
  | '_' :: _ => true
  | _ => false

/-- Translation of _is_dunder. -/
def isDunder (nm : String) : Bool :=
  twoUnderscoresAhead nm.data && twoUnderscoresAhead nm.data.reverse

/-- Translation of _is_private. -/
def isPrivate (nm : String) : Bool :=
  underscoreAhead nm && !isDunder nm

/-- Translation of _sort_key_alpha: case-insensitive, underscore after
letters (Python tuple (name.lstrip underscore .lower(), startswith)). -/
def sortKeyAlpha (nm : String) : String × Bool :=
  (lowerStr (nm.data.dropWhile (· = '_')).asString, underscoreAhead nm)

/-- Translation of _has_decorator: bare Name or Attribute tail match. -/
def hasDecorator (decorators : List Expr) (decName : String) : Bool :=
  decorators.any fun e =>
    match e with
    | .ename v => v = decName
    | .attr _ a => a = decName
    | _ => false

/-- Accessor kinds of a property group. -/
inductive PKind where
  | getter | setter | deleter
  deriving DecidableEq

/-- Translation of _property_kind: getter via the property decorator,
setter and deleter via an Attribute decorator with a Name base. -/
def propertyKind (decorators : List Expr) (funcName : String) :
    Option (String × PKind) :=
  if hasDecorator decorators "property" then some (funcName, .getter)
  else
    decorators.findSome? fun e =>
      match e with
      | .attr (.ename base) a =>
        if a = "setter" then some (base, .setter)
        else if a = "deleter" then some (base, .deleter)
        else none
      | _ => none

/-- Method categories used by _classify_method. -/
inductive MKind where
  | dunderKind | classmethodKind | staticmethodKind | propKind | instanceKind
  deriving DecidableEq

/-- Function name of a statement (empty for non-functions). -/
def stmtName : Stmt → String
  | .funcDef _ nm _ _ _ => nm
  | _ => ""

/-- Decorators of a statement (empty for non-functions). -/
def stmtDecorators : Stmt → List Expr
  | .funcDef d _ _ _ _ => d
  | _ => []

/-- Property classification of a method statement. -/
def propertyKindOf (s : Stmt) : Option (String × PKind) :=
  propertyKind (stmtDecorators s) (stmtName s)

/-- Translation of _classify_method (kind component). -/
def kindOf (s : Stmt) : MKind :=
  if (propertyKindOf s).isSome then .propKind
  else if hasDecorator (stmtDecorators s) "classmethod" then .classmethodKind
  else if hasDecorator (stmtDecorators s) "staticmethod" then .staticmethodKind
  else if isDunder (stmtName s) then .dunderKind
  else .instanceKind

/-- Translation of _is_method_node: FunctionDef nodes only (async defs are
FunctionDef nodes in libcst as well). -/
def isMethodNode : Stmt → Bool
  | .funcDef _ _ _ _ _ => true
  | _ => false

/-- Lexicographic order on the (group, position) dunder keys. -/
def dunderLe (a b : Stmt) : Prop :=
  (dunderOrder (stmtName a)).1 < (dunderOrder (stmtName b)).1 ∨
    ((dunderOrder (stmtName a)).1 = (dunderOrder (stmtName b)).1 ∧
      (dunderOrder (stmtName a)).2 ≤ (dunderOrder (stmtName b)).2)

instance : DecidableRel dunderLe :=
  fun a b => inferInstanceAs (Decidable (_ ∨ _))

/-- Lexicographic order on the _sort_key_alpha keys (string first, then
the underscore flag with False before True). -/
def alphaLe (a b : Stmt) : Prop :=
  strLtB (sortKeyAlpha (stmtName a)).1 (sortKeyAlpha (stmtName b)).1 = true ∨
    ((sortKeyAlpha (stmtName a)).1 = (sortKeyAlpha (stmtName b)).1 ∧
      ((sortKeyAlpha (stmtName a)).2 = true → (sortKeyAlpha (stmtName b)).2 = true))

instance : DecidableRel alphaLe :=
  fun a b => inferInstanceAs (Decidable (_ ∨ _))

/-- Dunder ordering as in reorder_class_methods: known dunders sorted by
(group, position), unknown dunders after them alphabetically. -/
def orderDunders (ds : List Stmt) : List Stmt :=
  let known := ds.filter fun s => (dunderOrder (stmtName s)).1 ≠ 999
  let unknown := ds.filter fun s => (dunderOrder (stmtName s)).1 = 999
  known.insertionSort dunderLe ++ unknown.insertionSort alphaLe

/-- Translation of sort_by_visibility: public first then private, each
sorted by _sort_key_alpha. -/
def sortByVisibility (items : List Stmt) : List Stmt :=
  let pub := items.filter fun s => !isPrivate (stmtName s)
  let priv := items.filter fun s => isPrivate (stmtName s)
  pub.insertionSort alphaLe ++ priv.insertionSort alphaLe

/-- Getter, setter and deleter slots of one property group. -/
structure PropSlots where
  getter : Option Stmt
  setter : Option Stmt
  deleter : Option Stmt
  deriving DecidableEq

/-- Empty group created by setdefault. -/
def PropSlots.empty : PropSlots := ⟨none, none, none⟩

/-- Assignment g[kind] = node of one slot. -/
def PropSlots.set (g : PropSlots) (k : PKind) (n : Stmt) : PropSlots :=
  match k with
  | .getter => { g with getter := some n }
  | .setter => { g with setter := some n }
  | .deleter => { g with deleter := some n }

/-- Insertion-ordered dict update: prop_groups.setdefault(base, empty)
followed by the slot assignment. -/
def updatePropGroups (groups : List (String × PropSlots)) (b : String)
    (k : PKind) (n : Stmt) : List (String × PropSlots) :=
  if groups.any fun g => g.1 = b then
    groups.map fun g => if g.1 = b then (g.1, g.2.set k n) else g
  else
    groups ++ [(b, PropSlots.empty.set k n)]

/-- Grouping loop of reorder_class_methods over the property metas. -/
def buildPropGroups (metas : List (String × PKind × Stmt)) :
    List (String × PropSlots) :=
  metas.foldl (fun groups meta => updatePropGroups groups meta.1 meta.2.1 meta.2.2) []

/-- Translation of prop_group_to_nodes: getter, setter, deleter order. -/
def propGroupToNodes (g : PropSlots) : List Stmt :=
  g.getter.toList ++ g.setter.toList ++ g.deleter.toList

/-- Properties flattened over base names sorted case-insensitively. -/
def orderProps (metas : List (String × PKind × Stmt)) : List Stmt :=
  let groups := buildPropGroups metas
  (((groups.map Prod.fst).insertionSort lowerLe).filterMap fun b =>
    (groups.find? fun g => g.1 = b).map Prod.snd).flatMap propGroupToNodes

/-- Property metas of the method list, in method order. -/
def propMetas (methods : List Stmt) : List (String × PKind × Stmt) :=
  methods.filterMap fun s =>
    if kindOf s = .propKind then (propertyKindOf s).map fun p => (p.1, p.2, s)
    else none

/-- Final ordered method list of reorder_class_methods. -/
def computeOrderedMethods (methods : List Stmt) : List Stmt :=
  orderDunders (methods.filter fun s => kindOf s = .dunderKind)
    ++ sortByVisibility (methods.filter fun s => kindOf s = .classmethodKind)
    ++ sortByVisibility (methods.filter fun s => kindOf s = .staticmethodKind)
    ++ orderProps (propMetas methods)
    ++ sortByVisibility (methods.filter fun s => kindOf s = .instanceKind)

/-- Positions of method nodes inside the class body. -/
def methodIndices : List Stmt → List Nat
  | [] => []
  | s :: rest =>
    if isMethodNode s then 0 :: (methodIndices rest).map (· + 1)
    else (methodIndices rest).map (· + 1)

/-- Writing loop of reorder_class_methods: new_body[pos] = node for the
zip of positions and reordered methods. -/
def zipWriteMethods (body : List Stmt) (idxs : List Nat) (ordered : List Stmt) :
    List Stmt :=
  ((idxs.zip ordered).foldl (fun acc p => acc.set p.1 p.2) body)

/-- Observation helper for the frame statements: walking the body and
replacing the method nodes in order by the supplied list, keeping every
other statement in place.  The zip write of reorder_class_methods is
proved equal to this walk. -/
def replaceMethods : List Stmt → List Stmt → List Stmt
  | [], _ => []
  | s :: rest, os =>
    if isMethodNode s then
      match os with
      | [] => s :: rest
      | o :: os2 => o :: replaceMethods rest os2
    else s :: replaceMethods rest os

/-- Observation helper: the filled slots of one property group, each
tagged with its (base, kind) pair. -/
def slotPairs (g : String × PropSlots) : List ((String × PKind) × Stmt) :=
  (g.2.getter.toList.map fun n => ((g.1, PKind.getter), n))
    ++ (g.2.setter.toList.map fun n => ((g.1, PKind.setter), n))
    ++ (g.2.deleter.toList.map fun n => ((g.1, PKind.deleter), n))

/-- Translation of reorder_class_methods on a class body. -/
def reorderClassBody (body : List Stmt) : List Stmt :=
  let methods := body.filter isMethodNode
  if methods.isEmpty then body
  else
    let ordered := computeOrderedMethods methods
    if ordered = methods then body
    else zipWriteMethods body (methodIndices body) ordered

/-- Translation of reorder_class_methods on a ClassDef statement. -/
def reorderClassMethods (s : Stmt) : Stmt :=
  match s with
  | .classDef d nm bs body => .classDef d nm bs (reorderClassBody body)
  | other => other

/-- Translation of ensure_order_class_methods_in_module. -/
def ensureOrderClassMethodsInModule (m : ModuleM) : ModuleM :=
  ⟨m.body.map fun s =>
    match s with
    | .classDef _ _ _ _ => reorderClassMethods s
    | other => other⟩

/-! ## Import index (utils/relocate_imports/python_parser_import_index.py)

The visitor walks the whole tree (imports inside functions and classes
included) in document order; a later import of the same local name
overwrites the earlier binding. -/

/-- name_to_from map: local name to (origin module, asname). -/
abbrev IdxMap := List (String × (Option String × Option String))

/-- Dict assignment d[k] = v, keeping the insertion position of the key. -/
def idxUpsert (m : IdxMap) (k : String) (v : Option String × Option String) :
    IdxMap :=
  if m.any fun p => p.1 = k then
    m.map fun p => if p.1 = k then (k, v) else p
  else m ++ [(k, v)]

/-- Index contribution of one small statement. -/
def idxSmall (m : IdxMap) : Small → IdxMap
  | .importBare names =>
    names.foldl
      (fun m al =>
        match al.parts with
        | [] => m
        | base :: _ =>
          let aliasName := al.asname.getD base
          idxUpsert m aliasName (none, none))
      m
  | .importFrom module names =>
    let moduleName := module.map joinDots
    if moduleName = some "__future__" then m
    else
      names.foldl
        (fun m al =>
          idxUpsert m (al.asname.getD al.nm) (moduleName, al.asname))
        m
  | _ => m

mutual

/-- Index traversal over one statement. -/
def idxStmt (m : IdxMap) : Stmt → IdxMap
  | .line _ smalls => smalls.foldl idxSmall m
  | .funcDef _ _ _ _ body => idxStmts m body
  | .classDef _ _ _ body => idxStmts m body
  | .ifStmt _ body => idxStmts m body

/-- Index traversal over a statement list. -/
def idxStmts (m : IdxMap) : List Stmt → IdxMap
  | [] => m
  | s :: rest => idxStmts (idxStmt m s) rest

end

/-- Translation of PythonParserImportIndex applied to a module. -/
def buildParserImportIndex (m : ModuleM) : IdxMap :=
  idxStmts [] m.body

/-- Keys of the index: imported_value_names of the driver. -/
def idxKeys (m : IdxMap) : List String := m.map Prod.fst

/-- Resolved origin module of a name, name_to_from.get(n, (None, None))[0]. -/
def idxResolve (idx : IdxMap) (n : String) : Option String :=
  match idx.find? fun p => p.1 = n with
  | some p => p.2.1
  | none => none

/-! ## Usage collector (utils/relocate_imports/python_usage_collector.py)

Notes on the effective Python semantics embedded here:
  * visit_Param is defined twice in the class; the second definition wins,
    so the parameter default/annot stacks are never pushed and parameter
    defaults reach used_in_B only through visit_Parameters.
  * visit_AsyncFunctionDef and leave_AsyncFunctionDef never fire (libcst
    async defs are FunctionDef nodes) and are not modelled separately.
  * future_annotations_enabled keeps its default True in the driver, so a
    class-level annotated assignment records its annotation as type-only
    (used_in_C_annot), not as class-level.
  * The buckets are sets; the model keeps them as insertion-ordered
    duplicate-free lists. -/

/-- Buckets filled by the usage collector. -/
structure UCState where
  fnl : List (String × List String)
  usedInB : List String
  usedInCAnnot : List String
  castAnywhere : List String
  deriving DecidableEq

/-- Empty buckets. -/
def UCState.init : UCState := ⟨[], [], [], []⟩

/-- functions_needing_local[qname].add(v). -/
def fnlAdd (qname v : String) (m : List (String × List String)) :
    List (String × List String) :=
  if m.any fun p => p.1 = qname then
    m.map fun p => if p.1 = qname then (p.1, addUniq v p.2) else p
  else m ++ [(qname, [v])]

/-- Lookup in functions_needing_local, defaulting to the empty set. -/
def fnlGet (m : List (String × List String)) (qname : String) : List String :=
  match m.find? fun p => p.1 = qname with
  | some p => p.2
  | none => []

mutual

/-- Translation of _walk_expr_for_names: names matching the imported set,
recursing into the value side of attributes only, both sides of binary
operations, subscript values and slices, calls and list literals. -/
def walkExprForNames (imported : List String) : Expr → List String
  | .ename s => if s ∈ imported then [s] else []
  | .attr v _ => walkExprForNames imported v
  | .binop l r => walkExprForNames imported l ++ walkExprForNames imported r
  | .subscript v slices =>
    walkExprForNames imported v ++ walkExprListForNames imported slices
  | .call f args =>
    walkExprForNames imported f ++ walkExprListForNames imported args
  | .listExpr elements => walkExprListForNames imported elements
  | .simpleString _ => []

/-- List version of the walk. -/
def walkExprListForNames (imported : List String) : List Expr → List String
  | [] => []
  | e :: rest =>
    walkExprForNames imported e ++ walkExprListForNames imported rest

end

/-- Translation of _record_type_names. -/
def recordTypeNameList (imported : List String) : Expr → List String
  | .ename s => if s ∈ imported then [s] else []
  | .subscript v slices =>
    walkExprForNames imported v ++ walkExprListForNames imported slices
  | e => walkExprForNames imported e

mutual

/-- Translation of the _collect_base_names helper of visit_Parameters:
collects base identifiers of default expressions unconditionally. -/
def collectBaseNamesList : Expr → List String
  | .ename s => [s]
  | .attr v _ => collectBaseNamesList v
  | .subscript v slices =>
    collectBaseNamesList v ++ collectBaseNamesListMany slices
  | _ => []

/-- List version of _collect_base_names over subscript slices. -/
def collectBaseNamesListMany : List Expr → List String
  | [] => []
  | e :: rest => collectBaseNamesList e ++ collectBaseNamesListMany rest

end

/-- Identifier test used to model cst.parse_expression on forward
reference strings: the model re-parses only a plain identifier (the shape
exercised by the code under review); other strings behave like a parse
failure, which the collector swallows. -/
def isIdentStr (s : String) : Bool :=
  !s.data.isEmpty
    && s.data.all (fun c => c.isAlphanum || c = '_')
    && !(s.data.headD ' ').isDigit

/-- Translation of _collect_names_from_type_expr. -/
def collectNamesFromTypeExpr (imported : List String) : Expr → List String
  | .simpleString s =>
    if isIdentStr s then (if s ∈ imported then [s] else []) else []
  | e => walkExprForNames imported e

/-- Add every element of a found-name list to a set-like bucket. -/
def addAllUniq (names : List String) (bucket : List String) : List String :=
  names.foldl (fun b n => addUniq n b) bucket

/-- Translation of visit_Name of the usage collector. -/
def ucNameEffect (imported : List String) (idx : IdxMap) (fs : List String)
    (inAnn inDec : Bool) (v : String) (st : UCState) : UCState :=
  match fs.getLast? with
  | none => st
  | some top =>
    if inAnn || inDec then st
    else if v = "cast" then st
    else if v ∈ imported then
      match idxResolve idx v with
      | none => { st with usedInB := addUniq v st.usedInB }
      | some m =>
        if m = "typing" || m = "collections" || m = "collections.abc" then st
        else { st with fnl := fnlAdd top v st.fnl }
    else st

/-- Translation of visit_Call of the usage collector: constructor calls of
imported capitalized names and cast-shaped calls whose first argument is
the type expression. -/
def ucCallEffect (imported : List String) (fs : List String)
    (func : Expr) (args : List Expr) (st : UCState) : UCState :=
  match fs.getLast? with
  | none => st
  | some top =>
    match func with
    | .ename callee =>
      if callee ∈ imported && firstCharUpper callee then
        { st with fnl := fnlAdd top callee st.fnl }
      else if (callee = "cast" || strContains (lowerStr callee) "cast")
          && !args.isEmpty then
        match args.head? with
        | none => st
        | some typeArg =>
          let ns := collectNamesFromTypeExpr imported typeArg
          ns.foldl
            (fun st n =>
              { st with
                castAnywhere := addUniq n st.castAnywhere
                fnl := fnlAdd top n st.fnl })
            st
      else st
    | .attr _ a =>
      if (a = "cast" || strContains (lowerStr a) "cast") && !args.isEmpty then
        match args.head? with
        | none => st
        | some typeArg =>
          let ns := collectNamesFromTypeExpr imported typeArg
          ns.foldl
            (fun st n =>
              { st with
                castAnywhere := addUniq n st.castAnywhere
                fnl := fnlAdd top n st.fnl })
            st
      else st
    | _ => st

mutual

/-- Expression traversal of the usage collector, carrying the annotation
and decorator context flags.  visit_Attribute visits the value side only,
visit_Arg visits argument values only, and visit_Call fires regardless of
the context flags (only visit_Name consults them). -/
def ucExpr (imported : List String) (idx : IdxMap) (fs : List String)
    (inAnn inDec : Bool) (st : UCState) : Expr → UCState
  | .ename s => ucNameEffect imported idx fs inAnn inDec s st
  | .attr v _ => ucExpr imported idx fs inAnn inDec st v
  | .call f args =>
    let st := ucCallEffect imported fs f args st
    let st := ucExpr imported idx fs inAnn inDec st f
    ucExprList imported idx fs inAnn inDec st args
  | .subscript v slices =>
    let st := ucExpr imported idx fs inAnn inDec st v
    ucExprList imported idx fs inAnn inDec st slices
  | .binop l r =>
    let st := ucExpr imported idx fs inAnn inDec st l
    ucExpr imported idx fs inAnn inDec st r
  | .listExpr elements => ucExprList imported idx fs inAnn inDec st elements
  | .simpleString _ => st

/-- Expression list traversal of the usage collector. -/
def ucExprList (imported : List String) (idx : IdxMap) (fs : List String)
    (inAnn inDec : Bool) (st : UCState) : List Expr → UCState
  | [] => st
  | e :: rest =>
    ucExprList imported idx fs inAnn inDec
      (ucExpr imported idx fs inAnn inDec st e) rest

end

/-- Optional expression traversal. -/
def ucExprOpt (imported : List String) (idx : IdxMap) (fs : List String)
    (inAnn inDec : Bool) (st : UCState) : Option Expr → UCState
  | none => st
  | some e => ucExpr imported idx fs inAnn inDec st e

/-- Usage collector effect of one small statement inside the stacks. -/
def ucSmall (imported : List String) (idx : IdxMap) (cs fs : List String)
    (st : UCState) : Small → UCState
  | .importFrom module names =>
    let st :=
      match module with
      | some (base :: _) => ucNameEffect imported idx fs false false base st
      | _ => st
    names.foldl
      (fun st al =>
        let st := ucNameEffect imported idx fs false false al.nm st
        match al.asname with
        | some a => ucNameEffect imported idx fs false false a st
        | none => st)
      st
  | .importStar module =>
    match module with
    | some (base :: _) => ucNameEffect imported idx fs false false base st
    | _ => st
  | .importBare names =>
    names.foldl
      (fun st al =>
        let st :=
          match al.parts with
          | base :: _ => ucNameEffect imported idx fs false false base st
          | [] => st
        match al.asname with
        | some a => ucNameEffect imported idx fs false false a st
        | none => st)
      st
  | .annAssign target annot value =>
    let found := recordTypeNameList imported annot
    let st :=
      if cs.isEmpty then { st with usedInCAnnot := addAllUniq found st.usedInCAnnot }
      else { st with usedInCAnnot := addAllUniq found st.usedInCAnnot }
    let st :=
      if cs.isEmpty then st
      else
        match value with
        | some v =>
          { st with usedInB := addAllUniq (walkExprForNames imported v) st.usedInB }
        | none => st
    let st := ucNameEffect imported idx fs false false target st
    let st := ucExpr imported idx fs true false st annot
    ucExprOpt imported idx fs false false st value
  | .assign targets value =>
    let st :=
      if cs.isEmpty then st
      else
        { st with usedInB := addAllUniq (walkExprForNames imported value) st.usedInB }
    let st :=
      targets.foldl (fun st t => ucNameEffect imported idx fs false false t st) st
    ucExpr imported idx fs false false st value
  | .exprStmt e => ucExpr imported idx fs false false st e
  | .ret e => ucExprOpt imported idx fs false false st e
  | .passStmt => st

mutual

/-- Usage collector traversal over one statement. -/
def ucStmt (imported : List String) (idx : IdxMap) (cs fs : List String)
    (st : UCState) : Stmt → UCState
  | .line _ smalls => smalls.foldl (ucSmall imported idx cs fs) st
  | .funcDef decorators nm params returns body =>
    let qname :=
      if cs.isEmpty && fs.isEmpty then nm else joinDots (cs ++ fs ++ [nm])
    let fs2 := fs ++ [qname]
    let st :=
      match returns with
      | some r =>
        { st with usedInCAnnot := addAllUniq (recordTypeNameList imported r) st.usedInCAnnot }
      | none => st
    let st := decorators.foldl
      (fun st d =>
        let st := { st with usedInB := addAllUniq (walkExprForNames imported d) st.usedInB }
        ucExpr imported idx fs2 false true st d)
      st
    let st := ucNameEffect imported idx fs2 false false nm st
    let st := params.foldl
      (fun st p =>
        let st :=
          match p.default with
          | some dv =>
            { st with usedInB := addAllUniq (collectBaseNamesList dv) st.usedInB }
          | none => st
        let st :=
          match p.annot with
          | some a =>
            { st with usedInCAnnot := addAllUniq (recordTypeNameList imported a) st.usedInCAnnot }
          | none => st
        let st := ucNameEffect imported idx fs2 false false p.nm st
        let st := ucExprOpt imported idx fs2 true false st p.annot
        ucExprOpt imported idx fs2 false false st p.default)
      st
    let st := ucExprOpt imported idx fs2 true false st returns
    ucStmts imported idx cs fs2 st body
  | .classDef decorators nm bases body =>
    let cs2 := cs ++ [nm]
    let st := bases.foldl
      (fun st b =>
        { st with usedInB := addAllUniq (walkExprForNames imported b) st.usedInB })
      st
    let st := decorators.foldl
      (fun st d =>
        let st := { st with usedInB := addAllUniq (walkExprForNames imported d) st.usedInB }
        ucExpr imported idx fs false true st d)
      st
    let st := ucNameEffect imported idx fs false false nm st
    let st := bases.foldl (fun st b => ucExpr imported idx fs false false st b) st
    ucStmts imported idx cs2 fs st body
  | .ifStmt test body =>
    let st := ucExpr imported idx fs false false st test
    ucStmts imported idx cs fs st body

/-- Usage collector traversal over a statement list. -/
def ucStmts (imported : List String) (idx : IdxMap) (cs fs : List String)
    (st : UCState) : List Stmt → UCState
  | [] => st
  | s :: rest => ucStmts imported idx cs fs (ucStmt imported idx cs fs st s) rest

end

/-- PythonUsageCollector applied to a module. -/
def ucRun (imported : List String) (idx : IdxMap) (m : ModuleM) : UCState :=
  ucStmts imported idx [] [] UCState.init m.body

/-! ## Runtime symbol collector
(utils/relocate_imports/python_runtime_symbol_collector.py) -/

/-- The _walk_for_runtime_names helper: base name of an attribute chain or
subscript value, recorded when imported. -/
def rscWalk (imported : List String) (acc : List String) : Expr → List String
  | .ename s => if s ∈ imported then addUniq s acc else acc
  | .attr v _ => rscWalk imported acc v
  | .subscript v _ => rscWalk imported acc v
  | _ => acc

/-- visit_Name of the runtime symbol collector. -/
def rscName (imported : List String) (inAnn : Bool) (v : String)
    (acc : List String) : List String :=
  if inAnn then acc else if v ∈ imported then addUniq v acc else acc

mutual

/-- Expression traversal of the runtime symbol collector. -/
def rscExpr (imported : List String) (inAnn : Bool) (acc : List String) :
    Expr → List String
  | .ename s => rscName imported inAnn s acc
  | .attr v _ =>
    if inAnn then rscExpr imported inAnn acc v
    else rscWalk imported acc v
  | .call f args =>
    rscExprList imported inAnn (rscExpr imported inAnn acc f) args
  | .subscript v slices =>
    rscExprList imported inAnn (rscExpr imported inAnn acc v) slices
  | .binop l r =>
    rscExpr imported inAnn (rscExpr imported inAnn acc l) r
  | .listExpr elements => rscExprList imported inAnn acc elements
  | .simpleString _ => acc

/-- Expression list traversal of the runtime symbol collector. -/
def rscExprList (imported : List String) (inAnn : Bool) (acc : List String) :
    List Expr → List String
  | [] => acc
  | e :: rest => rscExprList imported inAnn (rscExpr imported inAnn acc e) rest

end

/-- Optional expression traversal of the runtime symbol collector. -/
def rscExprOpt (imported : List String) (inAnn : Bool) (acc : List String) :
    Option Expr → List String
  | none => acc
  | some e => rscExpr imported inAnn acc e

/-- Runtime collector effect of one small statement.  Import statements
expose their Name tokens to visit_Name, so every locally bound import
name that is in the imported set is recorded as runtime-used. -/
def rscSmall (imported : List String) (acc : List String) : Small → List String
  | .importFrom module names =>
    let acc :=
      match module with
      | some (base :: _) => rscName imported false base acc
      | _ => acc
    names.foldl
      (fun acc al =>
        let acc := rscName imported false al.nm acc
        match al.asname with
        | some a => rscName imported false a acc
        | none => acc)
      acc
  | .importStar module =>
    match module with
    | some (base :: _) => rscName imported false base acc
    | _ => acc
  | .importBare names =>
    names.foldl
      (fun acc al =>
        let acc :=
          match al.parts with
          | base :: _ => rscName imported false base acc
          | [] => acc
        match al.asname with
        | some a => rscName imported false a acc
        | none => acc)
      acc
  | .annAssign target annot value =>
    let acc := rscName imported false target acc
    let acc := rscExpr imported true acc annot
    rscExprOpt imported false acc value
  | .assign targets value =>
    let acc := targets.foldl (fun acc t => rscName imported false t acc) acc
    rscExpr imported false acc value
  | .exprStmt e => rscExpr imported false acc e
  | .ret e => rscExprOpt imported false acc e
  | .passStmt => acc

mutual

/-- Runtime collector traversal over one statement. -/
def rscStmt (imported : List String) (acc : List String) : Stmt → List String
  | .line _ smalls => smalls.foldl (rscSmall imported) acc
  | .funcDef decorators nm params returns body =>
    let acc := rscName imported false nm acc
    let acc := rscExprList imported false acc decorators
    let acc := params.foldl
      (fun acc p =>
        let acc := rscName imported false p.nm acc
        let acc := rscExprOpt imported true acc p.annot
        rscExprOpt imported false acc p.default)
      acc
    let acc := rscExprOpt imported true acc returns
    rscStmts imported acc body
  | .classDef decorators nm bases body =>
    let acc := rscName imported false nm acc
    let acc := rscExprList imported false acc decorators
    let acc := rscExprList imported false acc bases
    rscStmts imported acc body
  | .ifStmt test body =>
    rscStmts imported (rscExpr imported false acc test) body

/-- Runtime collector traversal over a statement list. -/
def rscStmts (imported : List String) (acc : List String) :
    List Stmt → List String
  | [] => acc
  | s :: rest => rscStmts imported (rscStmt imported acc s) rest

end

/-- PythonRuntimeSymbolCollector applied to a module. -/
def rscRun (imported : List String) (m : ModuleM) : List String :=
  rscStmts imported [] m.body

/-! ## Local import name collector (inline in relocate_imports_option.py) -/

mutual

/-- Names imported locally inside functions, by the inline
_LocalImportNameCollector of the option driver. -/
def licStmt (depth : Nat) (acc : List String) : Stmt → List String
  | .line _ smalls =>
    smalls.foldl
      (fun acc sm =>
        match sm with
        | .importFrom _ names =>
          if depth > 0 then
            names.foldl (fun acc al => addUniq (al.asname.getD al.nm) acc) acc
          else acc
        | _ => acc)
      acc
  | .funcDef _ _ _ _ body => licStmts (depth + 1) acc body
  | .classDef _ _ _ body => licStmts depth acc body
  | .ifStmt _ body => licStmts depth acc body

/-- Statement list traversal of the local import name collector. -/
def licStmts (depth : Nat) (acc : List String) : List Stmt → List String
  | [] => acc
  | s :: rest => licStmts depth (licStmt depth acc s) rest

end

/-- _LocalImportNameCollector applied to a module. -/
def licRun (m : ModuleM) : List String :=
  licStmts 0 [] m.body

/-! ## Import rewriter (utils/relocate_imports/python_import_rewriter.py) -/

/-- Module expression flattening used by the rewriter and localizer. -/
def flattenModule (module : Option (List String)) : Option String :=
  module.map joinDots

/-- The _build_module_expr helper: split a dotted module string back into
an attribute chain (None stays None). -/
def buildModuleExpr (mod : Option String) : Option (List String) :=
  mod.map splitDots

/-- Translation of leave_ImportFrom alias filtering (module level, outside
a TYPE_CHECKING block).  Returns none when every alias was dropped
(RemoveFromParent). -/
def rewriteImportFrom (usedInB namesToRemove : List String)
    (module : Option (List String)) (names : List ImportAliasM) :
    Option Small :=
  let modStr := flattenModule module
  let kept := names.filter fun al =>
    let aliasIdent := al.asname.getD al.nm
    if modStr = some "typing" && al.nm ≠ "TYPE_CHECKING" then true
    else if aliasIdent ∈ usedInB then true
    else !(aliasIdent ∈ namesToRemove)
  if kept.isEmpty then none else some (.importFrom module kept)

/-- Translation of leave_Import alias filtering (module level).  The base
name of a dotted import is used for the membership checks; an alias with
no extractable name is skipped. -/
def rewriteImportBare (usedInB namesToRemove : List String)
    (names : List BareAliasM) : Option Small :=
  let kept := names.filter fun al =>
    match al.parts with
    | [] => false
    | base :: _ =>
      let aliasIdent := al.asname.getD base
      if aliasIdent ∈ usedInB then true
      else !(aliasIdent ∈ namesToRemove)
  if kept.isEmpty then none else some (.importBare kept)

/-- Alias filtering for one small statement of the rewriter, honouring the
module-level guard and the TYPE_CHECKING-block guard. -/
def rewriterSmall (usedInB namesToRemove : List String)
    (inClassFunc inTCTop : Bool) : Small → Option Small
  | .importFrom module names =>
    if inClassFunc then some (.importFrom module names)
    else if inTCTop then some (.importFrom module names)
    else rewriteImportFrom usedInB namesToRemove module names
  | .importBare names =>
    if inClassFunc then some (.importBare names)
    else rewriteImportBare usedInB namesToRemove names
  | other => some other

mutual

/-- Filtering phase of the rewriter over one statement.  A simple
statement line whose body became empty is dropped by the enclosing
sequence (libcst removes emptied lines). -/
def rewriterStmt (usedInB namesToRemove : List String)
    (inClassFunc inTCTop : Bool) : Stmt → Option Stmt
  | .line leading smalls =>
    let smalls2 := smalls.filterMap (rewriterSmall usedInB namesToRemove inClassFunc inTCTop)
    if smalls2.isEmpty && !smalls.isEmpty then none
    else some (.line leading smalls2)
  | .funcDef d nm p r body =>
    some (.funcDef d nm p r (rewriterStmts usedInB namesToRemove true false body))
  | .classDef d nm bs body =>
    some (.classDef d nm bs (rewriterStmts usedInB namesToRemove true false body))
  | .ifStmt test body =>
    let inTC := test = .ename "TYPE_CHECKING"
    some (.ifStmt test (rewriterStmts usedInB namesToRemove inClassFunc inTC body))

/-- Filtering phase of the rewriter over a statement list. -/
def rewriterStmts (usedInB namesToRemove : List String)
    (inClassFunc inTCTop : Bool) : List Stmt → List Stmt
  | [] => []
  | s :: rest =>
    match rewriterStmt usedInB namesToRemove inClassFunc inTCTop s with
    | some s2 => s2 :: rewriterStmts usedInB namesToRemove inClassFunc inTCTop rest
    | none => rewriterStmts usedInB namesToRemove inClassFunc inTCTop rest

end

/-- Detection of from typing import TYPE_CHECKING: a simple statement line
with exactly one small statement, module written as the plain name typing,
holding a TYPE_CHECKING alias. -/
def lineHasTypeCheckingImport : Stmt → Bool
  | .line _ [sm] =>
    match sm with
    | .importFrom (some ["typing"]) names => names.any fun al => al.nm = "TYPE_CHECKING"
    | _ => false
  | _ => false

mutual

/-- Whole-tree scan for the TYPE_CHECKING import detection performed by
leave_SimpleStatementLine during the traversal. -/
def foundTypeCheckingStmt : Stmt → Bool
  | .line l b => lineHasTypeCheckingImport (.line l b)
  | .funcDef _ _ _ _ body => foundTypeCheckingStmts body
  | .classDef _ _ _ body => foundTypeCheckingStmts body
  | .ifStmt _ body => foundTypeCheckingStmts body

/-- List version of the TYPE_CHECKING import scan. -/
def foundTypeCheckingStmts : List Stmt → Bool
  | [] => false
  | s :: rest => foundTypeCheckingStmt s || foundTypeCheckingStmts rest

end

/-- Append-only dict of module to name list. -/
def groupUpsert (m : List (Option String × List String)) (k : Option String)
    (v : String) : List (Option String × List String) :=
  if m.any fun p => p.1 = k then
    m.map fun p => if p.1 = k then (p.1, p.2 ++ [v]) else p
  else m ++ [(k, [v])]

/-- Append-only dict of module to name set. -/
def groupUpsertUniq (m : List (Option String × List String)) (k : Option String)
    (v : String) : List (Option String × List String) :=
  if m.any fun p => p.1 = k then
    m.map fun p => if p.1 = k then (p.1, addUniq v p.2) else p
  else m ++ [(k, [v])]

/-- Pairs imported inside an existing TYPE_CHECKING block, collected from
single-import simple statement lines. -/
def tcBlockPairs (body : List Stmt) : List (Option String × String) :=
  body.foldl
    (fun acc s =>
      match s with
      | .line _ [Small.importFrom module names] =>
        acc ++ names.map fun al => (flattenModule module, al.nm)
      | _ => acc)
    []

/-- Docstring test of the rewriter and localizer: a simple statement line
holding a string expression. -/
def isDocstringLine : Stmt → Bool
  | .line _ smalls =>
    smalls.any fun sm =>
      match sm with
      | .exprStmt (.simpleString _) => true
      | _ => false
  | _ => false

/-- A __future__ from-import line (first small statement decides). -/
def isFutureImportLine : Stmt → Bool
  | .line _ (sm :: _) =>
    match sm with
    | .importFrom (some ["__future__"]) _ => true
    | _ => false
  | _ => false

/-- An import line (first small statement is any import form). -/
def isImportLine : Stmt → Bool
  | .line _ (sm :: _) =>
    match sm with
    | .importFrom _ _ => true
    | .importStar _ => true
    | .importBare _ => true
    | _ => false
  | _ => false

/-- Insertion index of the new TYPE_CHECKING block: after a module
docstring, after the __future__ import run, then after the run of
consecutive imports. -/
def rewriterInsertIndex (body : List Stmt) : Nat :=
  let i0 : Nat :=
    match body.head? with
    | some s => if isDocstringLine s then 1 else 0
    | none => 0
  let i1 := i0 + ((body.drop i0).takeWhile isFutureImportLine).length
  i1 + ((body.drop i1).takeWhile isImportLine).length

/-- Insert at an index (list.insert of Python). -/
def insertAt (body : List Stmt) (i : Nat) (s : Stmt) : List Stmt :=
  body.take i ++ [s] ++ body.drop i

/-- The from typing import TYPE_CHECKING statement built by the rewriter. -/
def typingImportStmt : Stmt :=
  .line [] [.importFrom (some ["typing"]) [⟨"TYPE_CHECKING", none⟩]]

/-- Translation of leave_Module of the rewriter: append missing imports to
an existing TYPE_CHECKING block (returning the untransformed module when
nothing is missing), or create the block after the import run, inserting
the guard-symbol import when absent. -/
def rewriterLeaveModule (usedInCOnly : List String) (idx : IdxMap)
    (original : ModuleM) (filtered : List Stmt) (found : Bool) : ModuleM :=
  if usedInCOnly.isEmpty then ⟨filtered⟩
  else
    let desired := (pySorted usedInCOnly).foldl
      (fun acc ident =>
        let mod := idxResolve idx ident
        if mod = some "typing" then acc else groupUpsertUniq acc mod ident)
      []
    let existingIdx := filtered.findIdx? fun s =>
      match s with
      | .ifStmt (.ename "TYPE_CHECKING") _ => true
      | _ => false
    let existingBody :=
      match existingIdx with
      | some i =>
        match filtered.get? i with
        | some (.ifStmt _ body) => body
        | _ => []
      | none => []
    let existingImported := tcBlockPairs existingBody
    let missing := desired.foldl
      (fun acc p =>
        (pySorted p.2).foldl
          (fun acc n =>
            if (p.1, n) ∈ existingImported then acc else groupUpsert acc p.1 n)
          acc)
      []
    let importLines : List Stmt := missing.filterMap fun p =>
      if p.2.isEmpty then none
      else
        some (.line []
          [.importFrom (buildModuleExpr p.1)
            ((pySorted p.2).map fun n => ⟨n, none⟩)])
    match existingIdx with
    | some i =>
      if importLines.isEmpty then original
      else
        match filtered.get? i with
        | some (.ifStmt test body) =>
          ⟨filtered.set i (.ifStmt test (body ++ importLines))⟩
        | _ => ⟨filtered⟩
    | none =>
      if importLines.isEmpty then ⟨filtered⟩
      else
        let insertIdx := rewriterInsertIndex filtered
        let withTyping :=
          if found then (filtered, insertIdx)
          else (insertAt filtered insertIdx typingImportStmt, insertIdx + 1)
        ⟨insertAt withTyping.1 withTyping.2
          (.ifStmt (.ename "TYPE_CHECKING") importLines)⟩

/-- PythonImportRewriter applied to a module. -/
def importRewriterRun (usedInB namesToRemove usedInCOnly : List String)
    (idx : IdxMap) (m : ModuleM) : ModuleM :=
  let filtered := rewriterStmts usedInB namesToRemove false false m.body
  let found := foundTypeCheckingStmts filtered
  rewriterLeaveModule usedInCOnly idx m filtered found

/-! ## Local import injector
(utils/relocate_imports/python_localize_runtime_imports.py) -/

mutual

/-- Translation of _collect_current_pairs: every from-import pair in the
function subtree (module flattening on the module expression, alias base
name), bare imports ignored. -/
def collectPairsStmt (acc : List (Option String × String)) :
    Stmt → List (Option String × String)
  | .line _ smalls =>
    smalls.foldl
      (fun acc sm =>
        match sm with
        | .importFrom module names =>
          acc ++ names.map fun al => (flattenModule module, al.nm)
        | _ => acc)
      acc
  | .funcDef _ _ _ _ body => collectPairsStmts acc body
  | .classDef _ _ _ body => collectPairsStmts acc body
  | .ifStmt _ body => collectPairsStmts acc body

/-- List version of _collect_current_pairs. -/
def collectPairsStmts (acc : List (Option String × String)) :
    List Stmt → List (Option String × String)
  | [] => acc
  | s :: rest => collectPairsStmts (collectPairsStmt acc s) rest

end

mutual

/-- Translation of the _PruneInner transformer: drop aliases whose
(module, name) pair is scheduled for injection; remove the import when
every alias went away, and the line when it became empty. -/
def pruneStmt (pairsToAdd : List (Option String × String)) : Stmt → Option Stmt
  | .line leading smalls =>
    let smalls2 := smalls.filterMap fun sm =>
      match sm with
      | .importFrom module names =>
        let mod := flattenModule module
        let kept := names.filter fun al => !((mod, al.nm) ∈ pairsToAdd)
        if kept.isEmpty then none else some (.importFrom module kept)
      | other => some other
    if smalls2.isEmpty && !smalls.isEmpty then none
    else some (.line leading smalls2)
  | .funcDef d nm p r body => some (.funcDef d nm p r (pruneStmts pairsToAdd body))
  | .classDef d nm bs body => some (.classDef d nm bs (pruneStmts pairsToAdd body))
  | .ifStmt test body => some (.ifStmt test (pruneStmts pairsToAdd body))

/-- List version of the pruning transformer. -/
def pruneStmts (pairsToAdd : List (Option String × String)) :
    List Stmt → List Stmt
  | [] => []
  | s :: rest =>
    match pruneStmt pairsToAdd s with
    | some s2 => s2 :: pruneStmts pairsToAdd rest
    | none => pruneStmts pairsToAdd rest

end

/-- Translation of _build_import_statements_from_pairs: group the pairs by
module and emit one import statement per module with the names sorted. -/
def buildImportStatementsFromPairs (pairs : List (Option String × String)) :
    List Stmt :=
  let byModule := pairs.foldl (fun acc p => groupUpsert acc p.1 p.2) []
  byModule.filterMap fun p =>
    if p.2.isEmpty then none
    else
      some (.line []
        [.importFrom (buildModuleExpr p.1)
          ((pySorted p.2).map fun n => ⟨n, none⟩)])

/-- Translation of _build_local_imports: names scheduled for the function,
skip-listed names and names with an unresolved or typing origin module
silently dropped, grouped by module with the names sorted. -/
def buildLocalImports (idx : IdxMap) (fnl : List (String × List String))
    (skipLocalNames : List String) (qname : String) :
    List Stmt × List (Option String × String) :=
  let names := fnlGet fnl qname
  if names.isEmpty then ([], [])
  else
    let byModule := (pySorted names).foldl
      (fun acc ident =>
        if ident ∈ skipLocalNames then acc
        else
          match idxResolve idx ident with
          | none => acc
          | some mod =>
            if mod = "typing" then acc else groupUpsert acc (some mod) ident)
      ([] : List (Option String × List String))
    let pairs := byModule.flatMap fun p => (pySorted p.2).map fun n => (p.1, n)
    let stmts : List Stmt := byModule.filterMap fun p =>
      if p.2.isEmpty then none
      else
        some (.line []
          [.importFrom (buildModuleExpr p.1)
            ((pySorted p.2).map fun n => ⟨n, none⟩)])
    (stmts, pairs)

/-- Insertion index at the top of a function body: after the docstring
when one is present. -/
def localInsertIndex (body : List Stmt) : Nat :=
  match body.head? with
  | some s => if isDocstringLine s then 1 else 0
  | none => 0

mutual

/-- Translation of leave_FunctionDef of PythonLocalizeRuntimeImports.  The
qualified name is computed while the function name is still on the stack,
so it always repeats the innermost name.  When every scheduled pair is
already present the untransformed node is returned; otherwise matching
imports are pruned from the body and the missing ones inserted at the
top, after a docstring when present. -/
def localizeStmt (idx : IdxMap) (fnl : List (String × List String))
    (skipLocalNames : List String) (cs fs : List String) : Stmt → Stmt
  | .line leading smalls => .line leading smalls
  | .funcDef d nm p r body =>
    let fs2 := fs ++ [nm]
    let updatedBody := localizeStmts idx fnl skipLocalNames cs fs2 body
    let qname :=
      if cs.isEmpty && fs2.isEmpty then nm else joinDots (cs ++ fs2 ++ [nm])
    let built := buildLocalImports idx fnl skipLocalNames qname
    if built.1.isEmpty then .funcDef d nm p r updatedBody
    else
      let existing := collectPairsStmts [] updatedBody
      if built.2.all fun pr => pr ∈ existing then .funcDef d nm p r body
      else
        let pairsToAdd := built.2.filter fun pr => !(pr ∈ existing)
        if pairsToAdd.isEmpty then .funcDef d nm p r body
        else
          let pruned := pruneStmts pairsToAdd updatedBody
          let iAt := localInsertIndex pruned
          let toInjectFiltered := buildImportStatementsFromPairs pairsToAdd
          .funcDef d nm p r (pruned.take iAt ++ toInjectFiltered ++ pruned.drop iAt)
  | .classDef d nm bs body =>
    .classDef d nm bs (localizeStmts idx fnl skipLocalNames (cs ++ [nm]) fs body)
  | .ifStmt test body =>
    .ifStmt test (localizeStmts idx fnl skipLocalNames cs fs body)

/-- List version of the localizer transformer. -/
def localizeStmts (idx : IdxMap) (fnl : List (String × List String))
    (skipLocalNames : List String) (cs fs : List String) :
    List Stmt → List Stmt
  | [] => []
  | s :: rest =>
    localizeStmt idx fnl skipLocalNames cs fs s
      :: localizeStmts idx fnl skipLocalNames cs fs rest

end

/-- PythonLocalizeRuntimeImports applied to a module. -/
def localizeRun (idx : IdxMap) (fnl : List (String × List String))
    (skipLocalNames : List String) (m : ModuleM) : ModuleM :=
  ⟨localizeStmts idx fnl skipLocalNames [] [] m.body⟩

/-! ## Option driver (option/python/relocate_imports_option.py) -/

/-- Set union of the functions_needing_local value sets. -/
def fnlAllNames (fnl : List (String × List String)) : List String :=
  fnl.foldl (fun acc p => addAllUniq p.2 acc) []

/-- Category resolution of _apply_content_change: the names removed from
module level. -/
def namesToRemoveFromModule (m : ModuleM) : List String :=
  let idx := buildParserImportIndex m
  let imported := idxKeys idx
  let uc := ucRun imported idx m
  let runtimeUsed := rscRun imported m
  let runtimeLocalAll := fnlAllNames uc.fnl
  let runtimeLocalFinal := runtimeLocalAll.filter fun n => !(n ∈ uc.usedInB)
  let typeOnly := uc.usedInCAnnot.filter fun n =>
    !(n ∈ runtimeLocalFinal) && !(n ∈ uc.usedInB)
      && !(n ∈ uc.castAnywhere) && !(n ∈ runtimeUsed)
  runtimeLocalFinal.filter (fun n => !(n ∈ runtimeUsed))
    ++ typeOnly
    ++ uc.castAnywhere.filter (fun n => !(n ∈ uc.usedInB) && !(n ∈ runtimeUsed))

/-- Category resolution of _apply_content_change: the names destined for
the TYPE_CHECKING block. -/
def usedInCOnlyFinal (m : ModuleM) : List String :=
  let idx := buildParserImportIndex m
  let imported := idxKeys idx
  let uc := ucRun imported idx m
  let annotCandidates := uc.usedInCAnnot.filter fun n => !(n ∈ uc.usedInB)
  let typeOnlyForBlock := annotCandidates.filter fun n => !(n ∈ licRun m)
  let keptModuleImports := imported.filter fun n =>
    !(n ∈ namesToRemoveFromModule m)
  typeOnlyForBlock.filter fun n => !(n ∈ keptModuleImports)

/-- Translation of RelocateImportsOption._apply_content_change: index,
collect, resolve, rewrite, localize. -/
def utilsApply (m : ModuleM) : ModuleM :=
  let idx := buildParserImportIndex m
  let imported := idxKeys idx
  let uc := ucRun imported idx m
  let rewritten :=
    importRewriterRun uc.usedInB (namesToRemoveFromModule m)
      (usedInCOnlyFinal m) idx m
  localizeRun idx uc.fnl uc.usedInB rewritten

/-! ## Operation pipeline (operation/python_relocate_imports_operation.py)

The operation class carries its own inline ImportIndex, UsageCollector,
ImportRewriter and LocalizeRuntimeImports.  Effective Python semantics
embedded here:
  * The inline ImportIndex keeps only the last dotted component of an
    Attribute module expression and does not skip __future__ imports.
  * The inline UsageCollector defines visit_FunctionDef twice; the second
    definition (which records the return annotation) shadows the first
    (which pushed the function stack).  leave_FunctionDef still pops the
    stack, so the first function leave raises IndexError, which escapes
    preview_source_change (only the parse call is guarded).  Because the
    stack is never pushed, visit_Call returns immediately and
    functions_needing_local stays empty on every input that survives.
  * The inline _walk_expr_for_names matches the attribute tail (the right
    side of X.Y) against the imported names and does not recurse into the
    attribute value.
  * The inline ImportRewriter filters every from-import in the tree (no
    module-level or TYPE_CHECKING-block guard) and its leave_Module always
    builds a fresh TYPE_CHECKING block without looking for an existing
    one. -/

/-- Inline ImportIndex of the operation: last dotted component as the
module name, no __future__ skip, bare imports not indexed. -/
def opIdxSmall (m : IdxMap) : Small → IdxMap
  | .importFrom module names =>
    let moduleName := module.bind fun parts => parts.getLast?
    names.foldl
      (fun m al => idxUpsert m (al.asname.getD al.nm) (moduleName, al.asname))
      m
  | _ => m

mutual

/-- Inline index traversal over one statement. -/
def opIdxStmt (m : IdxMap) : Stmt → IdxMap
  | .line _ smalls => smalls.foldl opIdxSmall m
  | .funcDef _ _ _ _ body => opIdxStmts m body
  | .classDef _ _ _ body => opIdxStmts m body
  | .ifStmt _ body => opIdxStmts m body

/-- Inline index traversal over a statement list. -/
def opIdxStmts (m : IdxMap) : List Stmt → IdxMap
  | [] => m
  | s :: rest => opIdxStmts (opIdxStmt m s) rest

end

/-- Inline ImportIndex applied to a module. -/
def opImportIndex (m : ModuleM) : IdxMap :=
  opIdxStmts [] m.body

mutual

/-- Inline _walk_expr_for_names of the operation: bare names, the
attribute tail (not the base), and subscript values and slices. -/
def opWalkExprForNames (imported : List String) : Expr → List String
  | .ename s => if s ∈ imported then [s] else []
  | .attr _ a => if a ∈ imported then [a] else []
  | .subscript v slices =>
    opWalkExprForNames imported v ++ opWalkExprListForNames imported slices
  | _ => []

/-- List version of the inline walk. -/
def opWalkExprListForNames (imported : List String) : List Expr → List String
  | [] => []
  | e :: rest =>
    opWalkExprForNames imported e ++ opWalkExprListForNames imported rest

end

/-- Inline _record_type_names of the operation. -/
def opRecordTypeNameList (imported : List String) : Expr → List String
  | .ename s => if s ∈ imported then [s] else []
  | .subscript v slices =>
    opWalkExprForNames imported v ++ opWalkExprListForNames imported slices
  | e => opWalkExprForNames imported e

mutual

/-- Inline UsageCollector traversal: used_in_B and used_in_C_annot
buckets.  The error value models the IndexError raised by
leave_FunctionDef popping the never-pushed function stack. -/
def opCollectStmt (imported : List String) (cls : Nat)
    (st : List String × List String) : Stmt → Except Unit (List String × List String)
  | .line _ smalls =>
    .ok (smalls.foldl
      (fun st sm =>
        match sm with
        | .annAssign _ annot _ =>
          if cls = 0 then
            (st.1, addAllUniq (opRecordTypeNameList imported annot) st.2)
          else
            (addAllUniq (opRecordTypeNameList imported annot) st.1, st.2)
        | _ => st)
      st)
  | .funcDef _ _ params returns body => do
    let st :=
      match returns with
      | some r => (st.1, addAllUniq (opRecordTypeNameList imported r) st.2)
      | none => st
    let st := params.foldl
      (fun st p =>
        match p.annot with
        | some a => (st.1, addAllUniq (opRecordTypeNameList imported a) st.2)
        | none => st)
      st
    let _ ← opCollectStmts imported cls st body
    .error ()
  | .classDef _ _ _ body => opCollectStmts imported (cls + 1) st body
  | .ifStmt _ body => opCollectStmts imported cls st body

/-- Inline UsageCollector traversal over a statement list. -/
def opCollectStmts (imported : List String) (cls : Nat)
    (st : List String × List String) :
    List Stmt → Except Unit (List String × List String)
  | [] => .ok st
  | s :: rest => do
    let st ← opCollectStmt imported cls st s
    opCollectStmts imported cls st rest

end

/-- Inline UsageCollector applied to a module: (used_in_B, used_in_C). -/
def opCollectRun (imported : List String) (m : ModuleM) :
    Except Unit (List String × List String) :=
  opCollectStmts imported 0 ([], []) m.body

/-- used_in_C_annot of the operation on a module (empty when the
collector raises). -/
def opUsedInCAnnot (m : ModuleM) : List String :=
  match opCollectRun (idxKeys (opImportIndex m)) m with
  | .ok st => st.2
  | .error _ => []

/-- Inline leave_ImportFrom filtering, applied at every depth. -/
def opRewriteSmall (usedInB namesToRemove : List String) : Small → Option Small
  | .importFrom module names =>
    let kept := names.filter fun al =>
      let aliasIdent := al.asname.getD al.nm
      if aliasIdent ∈ usedInB then true else !(aliasIdent ∈ namesToRemove)
    if kept.isEmpty then none else some (.importFrom module kept)
  | other => some other

mutual

/-- Inline rewriter filtering over one statement (no level guards). -/
def opRewriterStmt (usedInB namesToRemove : List String) : Stmt → Option Stmt
  | .line leading smalls =>
    let smalls2 := smalls.filterMap (opRewriteSmall usedInB namesToRemove)
    if smalls2.isEmpty && !smalls.isEmpty then none
    else some (.line leading smalls2)
  | .funcDef d nm p r body =>
    some (.funcDef d nm p r (opRewriterStmts usedInB namesToRemove body))
  | .classDef d nm bs body =>
    some (.classDef d nm bs (opRewriterStmts usedInB namesToRemove body))
  | .ifStmt test body =>
    some (.ifStmt test (opRewriterStmts usedInB namesToRemove body))

/-- Inline rewriter filtering over a statement list. -/
def opRewriterStmts (usedInB namesToRemove : List String) :
    List Stmt → List Stmt
  | [] => []
  | s :: rest =>
    match opRewriterStmt usedInB namesToRemove s with
    | some s2 => s2 :: opRewriterStmts usedInB namesToRemove rest
    | none => opRewriterStmts usedInB namesToRemove rest

end

/-- Inline leave_Module rebuild: the typing import goes right after the
first statement past the leading __future__ run (when the guard import
was not detected), and the fresh TYPE_CHECKING block is inserted at index
1 whenever that scan placed the typing import, else at index 0. -/
def opModuleRebuild (filtered : List Stmt) (found : Bool) (tcIf : Stmt) :
    List Stmt :=
  let k := (filtered.takeWhile isFutureImportLine).length
  if k < filtered.length then
    let withTyping :=
      filtered.take (k + 1)
        ++ (if found then [] else [typingImportStmt])
        ++ filtered.drop (k + 1)
    insertAt withTyping 1 tcIf
  else
    insertAt filtered 0 tcIf

/-- Inline leave_Module of the operation rewriter. -/
def opLeaveModule (usedInCOnly : List String) (idx : IdxMap)
    (filtered : List Stmt) (found : Bool) : List Stmt :=
  if usedInCOnly.isEmpty then filtered
  else
    let byModule := (pySorted usedInCOnly).foldl
      (fun acc ident => groupUpsert acc (idxResolve idx ident) ident)
      []
    let tcBody : List Stmt := byModule.filterMap fun p =>
      if p.2.isEmpty then none
      else
        some (.line []
          [.importFrom (p.1.map fun s => [s])
            ((pySorted p.2).map fun n => ⟨n, none⟩)])
    if tcBody.isEmpty then filtered
    else
      opModuleRebuild filtered found (.ifStmt (.ename "TYPE_CHECKING") tcBody)

/-- Inline ImportRewriter applied to a module. -/
def opRewriteRun (usedInB namesToRemove usedInCOnly : List String)
    (idx : IdxMap) (m : ModuleM) : ModuleM :=
  let filtered := opRewriterStmts usedInB namesToRemove m.body
  let found := foundTypeCheckingStmts filtered
  ⟨opLeaveModule usedInCOnly idx filtered found⟩

/-- Inline _build_local_imports of the operation (no skip list, no
unresolved-module or typing filtering; the module is rebuilt as a single
Name even when dotted). -/
def opBuildLocalImports (idx : IdxMap) (fnl : List (String × List String))
    (qname : String) : List Stmt :=
  let names := fnlGet fnl qname
  if names.isEmpty then []
  else
    let byModule := (pySorted names).foldl
      (fun acc ident => groupUpsert acc (idxResolve idx ident) ident)
      []
    byModule.filterMap fun p =>
      if p.2.isEmpty then none
      else
        some (.line []
          [.importFrom (p.1.map fun s => [s])
            ((pySorted p.2).map fun n => ⟨n, none⟩)])

mutual

/-- Inline LocalizeRuntimeImports of the operation: class-stack qualified
names, insertion after a possible docstring, no deduplication against the
existing body. -/
def opLocalizeStmt (idx : IdxMap) (fnl : List (String × List String))
    (cs : List String) : Stmt → Stmt
  | .line leading smalls => .line leading smalls
  | .funcDef d nm p r body =>
    let updatedBody := opLocalizeStmts idx fnl cs body
    let qname := if cs.isEmpty then nm else joinDots (cs ++ [nm])
    let toInject := opBuildLocalImports idx fnl qname
    if toInject.isEmpty then .funcDef d nm p r updatedBody
    else
      let iAt := localInsertIndex updatedBody
      .funcDef d nm p r
        (updatedBody.take iAt ++ toInject ++ updatedBody.drop iAt)
  | .classDef d nm bs body =>
    .classDef d nm bs (opLocalizeStmts idx fnl (cs ++ [nm]) body)
  | .ifStmt test body => .ifStmt test (opLocalizeStmts idx fnl cs body)

/-- Inline localizer over a statement list. -/
def opLocalizeStmts (idx : IdxMap) (fnl : List (String × List String))
    (cs : List String) : List Stmt → List Stmt
  | [] => []
  | s :: rest =>
    opLocalizeStmt idx fnl cs s :: opLocalizeStmts idx fnl cs rest

end

/-- Inline localizer applied to a module. -/
def opLocalizeRun (idx : IdxMap) (fnl : List (String × List String))
    (m : ModuleM) : ModuleM :=
  ⟨opLocalizeStmts idx fnl [] m.body⟩

/-- PythonRelocateImportsOperation.preview_source_change after a
successful parse: index, collect (which raises on any module holding a
function definition), resolve, rewrite, localize.
functions_needing_local is empty whenever the collector returns, so
used_in_A_final is empty and the localizer changes nothing. -/
def opApply (m : ModuleM) : Except Unit ModuleM := do
  let idx := opImportIndex m
  let imported := idxKeys idx
  let bc ← opCollectRun imported m
  let usedInAFinal : List String := []
  let usedInCOnly := bc.2.filter fun n =>
    !(n ∈ usedInAFinal) && !(n ∈ bc.1)
  let namesToRemove := usedInAFinal ++ usedInCOnly
  let rewritten := opRewriteRun bc.1 namesToRemove usedInCOnly idx m
  .ok (opLocalizeRun idx [] rewritten)

/-! ## Parse guards of preview_source_change (error handling design)

The operations read the file, call cst.parse_module and transform.  Only
the relocate-imports operation (and the add-return-types operation) wrap
the parse in try/except returning the original text; the constants
ordering operation and its siblings call cst.parse_module unguarded, so a
parse failure propagates out of preview_source_change. -/

instance {ε α : Type} [DecidableEq ε] [DecidableEq α] :
    DecidableEq (Except ε α) := fun a b =>
  match a, b with
  | .ok x, .ok y =>
    if h : x = y then isTrue (by rw [h]) else
      isFalse (by intro he; injection he with g; exact h g)
  | .error x, .error y =>
    if h : x = y then isTrue (by rw [h]) else
      isFalse (by intro he; injection he with g; exact h g)
  | .ok _, .error _ => isFalse (fun h => Except.noConfusion h)
  | .error _, .ok _ => isFalse (fun h => Except.noConfusion h)

/-- A source handed to a pass: a well-formed tree or malformed text. -/
inductive PySource where
  | wellFormed (m : ModuleM)
  | malformed (raw : String)
  deriving DecidableEq

/-- Exceptions crossing the pass boundary. -/
inductive PErr where
  | parseFailure
  | indexError
  deriving DecidableEq

/-- The assumed CST parse primitive. -/
def cstParseModule : PySource → Except PErr ModuleM
  | .wellFormed m => .ok m
  | .malformed _ => .error .parseFailure

/-- Result of a preview: the untouched original text, no change, or a
rewritten module. -/
inductive PreviewOut where
  | unchangedOriginal
  | noChange
  | changed (m : ModuleM)
  deriving DecidableEq

/-- PythonRelocateImportsOperation.preview_source_change: the parse is
guarded (except Exception: return src); the transform itself is not, so
the collector IndexError still escapes. -/
def relocateImportsPreview (s : PySource) : Except PErr PreviewOut :=
  match cstParseModule s with
  | .error _ => .ok .unchangedOriginal
  | .ok m =>
    match opApply m with
    | .error _ => .error .indexError
    | .ok m2 => .ok (.changed m2)

/-- PythonOrderConstantsOperation.preview_source_change: unguarded parse,
then the flagged-constants reorder, returning no change when the code is
identical. -/
def orderConstantsPreview (s : PySource) : Except PErr PreviewOut :=
  match cstParseModule s with
  | .error e => .error e
  | .ok m =>
    let modified := reorderFlaggedConstantsEverywhere m
    if modified = m then .ok .noChange else .ok (.changed modified)

/-! ## Observation helpers used by the statements below -/

mutual

/-- Number of from-import aliases binding the name n that sit inside some
function body. -/
def aliasCountStmt (n : String) (inFunc : Bool) : Stmt → Nat
  | .line _ smalls =>
    if inFunc then
      (smalls.map fun sm =>
        match sm with
        | .importFrom _ names =>
          (names.filter fun al => al.asname.getD al.nm = n).length
        | _ => 0).sum
    else 0
  | .funcDef _ _ _ _ body => aliasCountStmts n true body
  | .classDef _ _ _ body => aliasCountStmts n inFunc body
  | .ifStmt _ body => aliasCountStmts n inFunc body

/-- List version of the function-local alias count. -/
def aliasCountStmts (n : String) (inFunc : Bool) : List Stmt → Nat
  | [] => 0
  | s :: rest => aliasCountStmt n inFunc s + aliasCountStmts n inFunc rest

end

/-- Function-local from-import aliases of n across a module. -/
def aliasCountInFunctions (n : String) (m : ModuleM) : Nat :=
  aliasCountStmts n false m.body

/-- The simple statement lines at module level, in order. -/
def moduleLevelLines (m : ModuleM) : List Stmt :=
  m.body.filter fun s =>
    match s with
    | .line _ _ => true
    | _ => false

mutual

/-- Modelled from the spec: the left-most base names of an expression,
the only positions the spec allows the classifier to match (for X.Y only
X counts, never the attribute tail Y). -/
def specLeftmostBases : Expr → List String
  | .ename s => [s]
  | .attr v _ => specLeftmostBases v
  | .call f args => specLeftmostBases f ++ specLeftmostBasesList args
  | .subscript v slices => specLeftmostBases v ++ specLeftmostBasesList slices
  | .binop l r => specLeftmostBases l ++ specLeftmostBases r
  | .listExpr elements => specLeftmostBasesList elements
  | .simpleString _ => []

/-- List version of the left-most base collection. -/
def specLeftmostBasesList : List Expr → List String
  | [] => []
  | e :: rest => specLeftmostBases e ++ specLeftmostBasesList rest

end

/-! ## Concrete programs referred to by the theorems -/

/-- Python text: from pkg import Foo ; x: Foo = None. -/
def c1Input : ModuleM := ⟨[
  .line [] [.importFrom (some ["pkg"]) [⟨"Foo", none⟩]],
  .line [] [.annAssign "x" (.ename "Foo") (some (.ename "None"))]]⟩

/-- First application of the operation relocate pass to c1Input: the
module import is moved under a fresh TYPE_CHECKING block that is inserted
before the guard-symbol import. -/
def c1Once : ModuleM := ⟨[
  .line [] [.annAssign "x" (.ename "Foo") (some (.ename "None"))],
  .ifStmt (.ename "TYPE_CHECKING")
    [.line [] [.importFrom (some ["pkg"]) [⟨"Foo", none⟩]]],
  .line [] [.importFrom (some ["typing"]) [⟨"TYPE_CHECKING", none⟩]]]⟩

/-- Second application of the operation relocate pass: the import inside
the first block is pruned away (leaving an empty block that serializes as
pass) and a second TYPE_CHECKING block is created. -/
def c1Twice : ModuleM := ⟨[
  .line [] [.annAssign "x" (.ename "Foo") (some (.ename "None"))],
  .ifStmt (.ename "TYPE_CHECKING")
    [.line [] [.importFrom (some ["pkg"]) [⟨"Foo", none⟩]]],
  .ifStmt (.ename "TYPE_CHECKING") [],
  .line [] [.importFrom (some ["typing"]) [⟨"TYPE_CHECKING", none⟩]]]⟩

/-- Python text: from b import C ; class K with annotation x: C ; a
function f holding a nested function f that calls C(). -/
def c2Input : ModuleM := ⟨[
  .line [] [.importFrom (some ["b"]) [⟨"C", none⟩]],
  .classDef [] "K" [] [.line [] [.annAssign "x" (.ename "C") none]],
  .funcDef [] "f" [] none
    [.funcDef [] "f" [] none
      [.line [] [.ret (some (.call (.ename "C") []))]]]]⟩

/-- Output of the option relocate pass on c2Input: the module import is
kept and a local import of C is injected into the outer function. -/
def c2Output : ModuleM := ⟨[
  .line [] [.importFrom (some ["b"]) [⟨"C", none⟩]],
  .classDef [] "K" [] [.line [] [.annAssign "x" (.ename "C") none]],
  .funcDef [] "f" [] none
    [.line [] [.importFrom (some ["b"]) [⟨"C", none⟩]],
     .funcDef [] "f" [] none
       [.line [] [.ret (some (.call (.ename "C") []))]]]]⟩

/-- Python text: from pkg import Foo ; def f(x: Foo): pass.  Foo is used
exclusively in a parameter annotation. -/
def c3Input : ModuleM := ⟨[
  .line [] [.importFrom (some ["pkg"]) [⟨"Foo", none⟩]],
  .funcDef [] "f" [⟨"x", some (.ename "Foo"), none⟩] none
    [.line [] [.passStmt]]]⟩

/-- Index and usage state computed by the option driver on c3Input. -/
def c3State : UCState :=
  ucRun (idxKeys (buildParserImportIndex c3Input))
    (buildParserImportIndex c3Input) c3Input

/-- Python text of the spec example: from pkg import Thing ; def f() ->
Thing: return Thing(). -/
def c5Input : ModuleM := ⟨[
  .line [] [.importFrom (some ["pkg"]) [⟨"Thing", none⟩]],
  .funcDef [] "f" [] (some (.ename "Thing"))
    [.line [] [.ret (some (.call (.ename "Thing") []))]]]⟩

/-- Output promised by the spec example: module import removed, a local
one inserted, return annotation dropped. -/
def c5ClaimedOutput : ModuleM := ⟨[
  .funcDef [] "f" [] none
    [.line [] [.importFrom (some ["pkg"]) [⟨"Thing", none⟩]],
     .line [] [.ret (some (.call (.ename "Thing") []))]]]⟩

/-- Python text: from pkg import Foo ; def f(): return Foo(). -/
def c6Input : ModuleM := ⟨[
  .line [] [.importFrom (some ["pkg"]) [⟨"Foo", none⟩]],
  .funcDef [] "f" [] none
    [.line [] [.ret (some (.call (.ename "Foo") []))]]]⟩

/-- Usage state computed by the option driver on c6Input. -/
def c6State : UCState :=
  ucRun (idxKeys (buildParserImportIndex c6Input))
    (buildParserImportIndex c6Input) c6Input

/-- Python text: from pkg import Foo ; a: x.Foo.  Foo occurs only as the
attribute tail of x.Foo. -/
def c7Input : ModuleM := ⟨[
  .line [] [.importFrom (some ["pkg"]) [⟨"Foo", none⟩]],
  .line [] [.annAssign "a" (.attr (.ename "x") "Foo") none]]⟩

/-- A class body holding two property getters that share the name p
followed by an instance method z. -/
def c9GetterA : Stmt := .funcDef [.ename "property"] "p" [] none [.line [] [.ret none]]

/-- The second getter of the same property name. -/
def c9GetterB : Stmt := .funcDef [.ename "property"] "p" [] none [.line [] [.passStmt]]

/-- The trailing instance method. -/
def c9MethodZ : Stmt := .funcDef [] "z" [] none [.line [] [.passStmt]]

/-- The class whose reordering loses a node. -/
def c9Class : Stmt := .classDef [] "K" [] [c9GetterA, c9GetterB, c9MethodZ]

/-- Result of reordering c9Class: the first getter is gone and the
instance method is duplicated. -/
def c9ClassOut : Stmt := .classDef [] "K" [] [c9GetterB, c9MethodZ, c9MethodZ]

/-- Usage state computed by the option driver on c2Input. -/
def c2State : UCState :=
  ucRun (idxKeys (buildParserImportIndex c2Input))
    (buildParserImportIndex c2Input) c2Input

/-- Class body for the amended C9 statement: a non-method line followed
by one property getter and one instance method (distinct pairs). -/
def c9WBody : List Stmt := [.line [] [.passStmt], c9GetterA, c9MethodZ]

/-- First line of the unmarked constant block: BETA before ALPHA. -/
def c8U1 : Stmt := .line [] [.assign ["BETA"] (.ename "y")]

/-- Second line of the unmarked constant block. -/
def c8U2 : Stmt := .line [] [.assign ["ALPHA"] (.ename "x")]

/-- First line of the marked block, carrying the opt-in flag comment. -/
def c8M1 : Stmt :=
  .line [⟨some "# filestate: python-constant-sort"⟩] [.assign ["BETA"] (.ename "y")]

/-- Second line of the marked block. -/
def c8M2 : Stmt := .line [] [.assign ["ALPHA"] (.ename "x")]

/-- Module body with two structurally identical constant blocks, only the
second preceded by the marker comment. -/
def c8Body : List Stmt := [c8U1, c8U2, c8M1, c8M2]

/-- The marked block as found by the scanner. -/
def c8Block : List Stmt := [c8M1, c8M2]

/-! ## Order lemmas for the sort relations -/

theorem charListLt_irrefl : ∀ l, charListLt l l = false
  | [] => rfl
  | c :: rest => by
    simp [charListLt, charListLt_irrefl rest]

theorem charListLt_trans : ∀ a b c, charListLt a b = true →
    charListLt b c = true → charListLt a c = true
  | [], [], _ :: _, _, _ => rfl
  | [], _ :: _, _ :: _, _, _ => rfl
  | x :: xs, y :: ys, z :: zs, h1, h2 => by
    simp only [charListLt, Bool.or_eq_true, Bool.and_eq_true,
      decide_eq_true_eq] at h1 h2 ⊢
    rcases h1 with h1 | ⟨he1, h1⟩ <;> rcases h2 with h2 | ⟨he2, h2⟩
    · exact Or.inl (lt_trans h1 h2)
    · exact Or.inl (he2 ▸ h1)
    · exact Or.inl (he1 ▸ h2)
    · exact Or.inr ⟨he1.trans he2, charListLt_trans xs ys zs h1 h2⟩

theorem charListLt_connex : ∀ a b, charListLt a b = false →
    charListLt b a = false → a = b
  | [], [], _, _ => rfl
  | [], _ :: _, h, _ => by simp [charListLt] at h
  | _ :: _, [], _, h => by simp [charListLt] at h
  | x :: xs, y :: ys, h1, h2 => by
    simp only [charListLt, Bool.or_eq_false_iff, Bool.and_eq_false_iff,
      decide_eq_false_iff_not] at h1 h2
    rcases lt_trichotomy x y with hxy | hxy | hxy
    · exact absurd hxy h1.1
    · subst hxy
      rcases h1.2 with h | h
      · exact absurd rfl h
      · rcases h2.2 with g | g
        · exact absurd rfl g
        · exact congrArg (x :: ·) (charListLt_connex xs ys h g)
    · exact absurd hxy h2.1

theorem strLeB_total (a b : String) : strLeB a b = true ∨ strLeB b a = true := by
  unfold strLeB strLtB
  by_cases h : charListLt b.data a.data = true
  · right
    by_cases g : charListLt a.data b.data = true
    · have := charListLt_trans _ _ _ h g
      rw [charListLt_irrefl] at this
      exact absurd this (by simp)
    · simp [Bool.not_eq_true] at g
      simp [g]
  · left
    simp [Bool.not_eq_true] at h
    simp [h]

theorem strLeB_trans (a b c : String) (h1 : strLeB a b = true)
    (h2 : strLeB b c = true) : strLeB a c = true := by
  unfold strLeB strLtB at h1 h2 ⊢
  simp only [Bool.not_eq_true'] at h1 h2 ⊢
  by_cases h : charListLt c.data a.data = true
  · by_cases g : charListLt a.data b.data = true
    · have := charListLt_trans _ _ _ h g
      rw [h2] at this
      exact absurd this (by simp)
    · simp only [Bool.not_eq_true] at g
      have he := charListLt_connex _ _ g h1
      rw [he, h2] at h
      exact absurd h (by simp)
  · simpa [Bool.not_eq_true] using h

instance : IsTotal String strLe := ⟨fun a b => strLeB_total a b⟩

instance : IsTrans String strLe := ⟨fun a b c => strLeB_trans a b c⟩

instance : IsTotal String lowerLe :=
  ⟨fun a b => strLeB_total (lowerStr a) (lowerStr b)⟩

instance : IsTrans String lowerLe :=
  ⟨fun a b c => strLeB_trans (lowerStr a) (lowerStr b) (lowerStr c)⟩

instance : IsTotal (String × Stmt) pairLowerLe :=
  ⟨fun a b => strLeB_total (lowerStr a.1) (lowerStr b.1)⟩

instance : IsTrans (String × Stmt) pairLowerLe :=
  ⟨fun a b c => strLeB_trans (lowerStr a.1) (lowerStr b.1) (lowerStr c.1)⟩

instance : IsTotal Stmt dunderLe := ⟨by
  intro a b
  rcases lt_trichotomy (dunderOrder (stmtName a)).1 (dunderOrder (stmtName b)).1
    with h | h | h
  · exact Or.inl (Or.inl h)
  · rcases le_total (dunderOrder (stmtName a)).2 (dunderOrder (stmtName b)).2
      with h2 | h2
    · exact Or.inl (Or.inr ⟨h, h2⟩)
    · exact Or.inr (Or.inr ⟨h.symm, h2⟩)
  · exact Or.inr (Or.inl h)⟩

instance : IsTrans Stmt dunderLe := ⟨by
  intro a b c hab hbc
  rcases hab with h | ⟨he, h2⟩ <;> rcases hbc with g | ⟨ge, g2⟩
  · exact Or.inl (lt_trans h g)
  · exact Or.inl (ge ▸ h)
  · exact Or.inl (he ▸ g)
  · exact Or.inr ⟨he.trans ge, le_trans h2 g2⟩⟩

/-- Strict part of the string key: a strict order fact used below. -/
theorem strLtB_asymm (a b : String) (h : strLtB a b = true) :
    strLtB b a = false := by
  unfold strLtB at h ⊢
  by_cases g : charListLt b.data a.data = true
  · have := charListLt_trans _ _ _ h g
    rw [charListLt_irrefl] at this
    exact absurd this (by simp)
  · simpa [Bool.not_eq_true] using g

instance : IsTotal Stmt alphaLe := ⟨by
  intro a b
  by_cases h : strLtB (sortKeyAlpha (stmtName a)).1 (sortKeyAlpha (stmtName b)).1 = true
  · exact Or.inl (Or.inl h)
  · by_cases g : strLtB (sortKeyAlpha (stmtName b)).1 (sortKeyAlpha (stmtName a)).1 = true
    · exact Or.inr (Or.inl g)
    · simp only [Bool.not_eq_true] at h g
      have he := charListLt_connex _ _ h g
      have he2 : (sortKeyAlpha (stmtName a)).1 = (sortKeyAlpha (stmtName b)).1 := by
        cases ha : (sortKeyAlpha (stmtName a)).1
        cases hb : (sortKeyAlpha (stmtName b)).1
        rw [ha, hb] at he
        exact congrArg String.mk he
      by_cases hfa : (sortKeyAlpha (stmtName a)).2 = true
      · by_cases hfb : (sortKeyAlpha (stmtName b)).2 = true
        · exact Or.inl (Or.inr ⟨he2, fun _ => hfb⟩)
        · exact Or.inr (Or.inr ⟨he2.symm, fun _ => hfa⟩)
      · exact Or.inl (Or.inr ⟨he2, fun hh => absurd hh hfa⟩)⟩

instance : IsTrans Stmt alphaLe := ⟨by
  intro a b c hab hbc
  rcases hab with h | ⟨he, h2⟩ <;> rcases hbc with g | ⟨ge, g2⟩
  · exact Or.inl (by
      unfold strLtB at h g ⊢
      exact charListLt_trans _ _ _ h g)
  · exact Or.inl (ge ▸ h)
  · exact Or.inl (he ▸ g)
  · exact Or.inr ⟨he.trans ge, fun hh => g2 (h2 hh)⟩⟩

/-! ## Constants pass lemmas -/

theorem takeWhile_eq_take {α : Type} (p : α → Bool) :
    ∀ l : List α, l.takeWhile p = l.take (l.takeWhile p).length
  | [] => rfl
  | x :: xs => by
    cases h : p x with
    | false => simp [List.takeWhile_cons, h]
    | true =>
      simp only [List.takeWhile_cons, h, if_true, List.length_cons,
        List.take_succ_cons]
      rw [← takeWhile_eq_take p xs]

theorem mem_takeConstRun (rest : List Stmt) :
    ∀ n ∈ takeConstRun rest, (getSimpleAssignmentName n).isSome := by
  intro n hn
  have hp := List.mem_takeWhile_imp hn
  cases n with
  | line leading body =>
    simp only [Bool.and_eq_true] at hp
    exact hp.2
  | funcDef d nm p r b => simp at hp
  | classDef d nm bs b => simp at hp
  | ifStmt t b => simp at hp

theorem takeConstRun_eq_take (rest : List Stmt) :
    takeConstRun rest = rest.take (takeConstRun rest).length :=
  takeWhile_eq_take _ rest

theorem findFlaggedAux_mem :
    ∀ (fuel : Nat) (l : List Stmt) (i : Nat) (b : Nat × Nat × List Stmt),
      b ∈ findFlaggedAux fuel l i →
        i ≤ b.1 ∧ b.2.1 = b.1 + b.2.2.length ∧ b.2.2 ≠ []
        ∧ stmtHasFlag b.2.2.headI = true
        ∧ (∀ n ∈ b.2.2, (getSimpleAssignmentName n).isSome)
        ∧ b.2.2 = (l.drop (b.1 - i)).take b.2.2.length := by
  intro fuel
  induction fuel with
  | zero => intro l i b hb; simp [findFlaggedAux] at hb
  | succ fuel ih =>
    intro l i b hb
    cases l with
    | nil => simp [findFlaggedAux] at hb
    | cons s rest =>
      simp only [findFlaggedAux] at hb
      split at hb
      · rename_i hc
        simp only [prevLineHasFlag, Bool.or_false, Bool.and_eq_true] at hc
        rcases List.mem_cons.mp hb with hb | hb
        · subst hb
          refine ⟨Nat.le_refl i, rfl, by simp, hc.1, ?_, ?_⟩
          · intro n hn
            rcases List.mem_cons.mp hn with hn | hn
            · subst hn; exact hc.2
            · exact mem_takeConstRun rest n hn
          · simp only [Nat.sub_self, List.drop_zero, List.length_cons,
              List.take_succ_cons]
            rw [← takeConstRun_eq_take]
        · simp only [List.length_cons, Nat.add_sub_cancel] at hb
          obtain ⟨h1, h2, h3, h4, h5, h6⟩ := ih _ _ b hb
          refine ⟨by omega, h2, h3, h4, h5, ?_⟩
          rw [List.drop_drop] at h6
          have hidx : b.1 - i =
              ((takeConstRun rest).length
                + (b.1 - (i + ((takeConstRun rest).length + 1)))) + 1 := by
            omega
          rw [hidx, List.drop_succ_cons]
          exact h6
      · obtain ⟨h1, h2, h3, h4, h5, h6⟩ := ih _ _ b hb
        refine ⟨by omega, h2, h3, h4, h5, ?_⟩
        have hidx : b.1 - i = (b.1 - (i + 1)) + 1 := by omega
        rw [hidx, List.drop_succ_cons]
        exact h6

theorem findFlaggedAux_pairwise :
    ∀ (fuel : Nat) (l : List Stmt) (i : Nat),
      (findFlaggedAux fuel l i).Pairwise fun a c => a.2.1 ≤ c.1 := by
  intro fuel
  induction fuel with
  | zero => intro l i; simp [findFlaggedAux]
  | succ fuel ih =>
    intro l i
    cases l with
    | nil => simp [findFlaggedAux]
    | cons s rest =>
      simp only [findFlaggedAux]
      split
      · refine List.pairwise_cons.mpr ⟨?_, ih _ _⟩
        intro c hcmem
        exact (findFlaggedAux_mem fuel _ _ c hcmem).1
      · exact ih _ _

theorem findBlocks_bounds (body : List Stmt) :
    ∀ b ∈ findFlaggedConstantBlocks body,
      b.2.1 = b.1 + b.2.2.length ∧ b.2.1 ≤ body.length
      ∧ (∀ j, j < b.2.2.length → body[b.1 + j]? = b.2.2[j]?)
      ∧ b.2.2 ≠ [] ∧ stmtHasFlag b.2.2.headI = true
      ∧ (∀ n ∈ b.2.2, (getSimpleAssignmentName n).isSome) := by
  intro b hb
  obtain ⟨h1, h2, h3, h4, h5, h6⟩ := findFlaggedAux_mem body.length body 0 b hb
  rw [Nat.sub_zero] at h6
  have hmin := congrArg List.length h6
  rw [List.length_take, List.length_drop] at hmin
  have hle : b.2.2.length ≤ body.length - b.1 := by
    rw [hmin]
    exact Nat.min_le_right _ _
  have hpos : 0 < b.2.2.length := List.length_pos.mpr h3
  refine ⟨h2, by omega, ?_, h3, h4, h5⟩
  intro j hj
  rw [h6, List.getElem?_take_of_lt hj, List.getElem?_drop]

theorem spliceReplace_length (body ns : List Stmt) (s e : Nat)
    (hse : s ≤ e) (he : e ≤ body.length) (hlen : ns.length = e - s) :
    (spliceReplace body s e ns).length = body.length := by
  simp only [spliceReplace, List.length_append, List.length_take,
    List.length_drop]
  omega

theorem spliceReplace_getElem_lt (body ns : List Stmt) (s e i : Nat)
    (hi : i < s) (hs : s ≤ body.length) :
    (spliceReplace body s e ns)[i]? = body[i]? := by
  unfold spliceReplace
  rw [List.append_assoc, List.getElem?_append]
  have hl : i < (body.take s).length := by
    rw [List.length_take]
    omega
  rw [if_pos hl, List.getElem?_take_of_lt hi]

theorem spliceReplace_getElem_ge (body ns : List Stmt) (s e i : Nat)
    (hse : s ≤ e) (he : e ≤ body.length) (hlen : ns.length = e - s)
    (hi : e ≤ i) :
    (spliceReplace body s e ns)[i]? = body[i]? := by
  unfold spliceReplace
  have hl1 : (body.take s ++ ns).length = e := by
    rw [List.length_append, List.length_take]
    omega
  rw [List.getElem?_append_right (by omega : (body.take s ++ ns).length ≤ i)]
  rw [hl1, List.getElem?_drop]
  have hidx : e + (i - e) = i := by omega
  rw [hidx]

theorem spliceReplace_getElem_slice (body ns : List Stmt) (s e j : Nat)
    (hs : s ≤ body.length) (hj : j < ns.length) :
    (spliceReplace body s e ns)[s + j]? = ns[j]? := by
  unfold spliceReplace
  rw [List.append_assoc]
  have hl : (body.take s).length = s := by
    rw [List.length_take]
    omega
  rw [List.getElem?_append_right (by omega : (body.take s).length ≤ s + j)]
  rw [hl]
  have hidx : s + j - s = j := by omega
  rw [hidx, List.getElem?_append, if_pos hj]

theorem getSimpleAssignmentName_setLeading (s : Stmt) (ll : List EmptyLineM) :
    getSimpleAssignmentName (setLeading s ll) = getSimpleAssignmentName s := by
  cases s with
  | line leading body =>
    cases body with
    | nil => rfl
    | cons sm rest =>
      cases rest with
      | nil => rfl
      | cons a r => rfl
  | funcDef d nm p r b => rfl
  | classDef d nm bs b => rfl
  | ifStmt t b => rfl

theorem constPairs_length :
    ∀ (nodes : List Stmt), (∀ n ∈ nodes, (getSimpleAssignmentName n).isSome) →
      (constPairs nodes).length = nodes.length
  | [], _ => rfl
  | n :: rest, h => by
    obtain ⟨nm, hnm⟩ := Option.isSome_iff_exists.mp (h n (by simp))
    simp only [constPairs, List.filterMap_cons, hnm, Option.map_some',
      List.length_cons]
    rw [← constPairs]
    rw [constPairs_length rest fun x hx => h x (List.mem_cons_of_mem n hx)]

theorem mem_constPairs (nodes : List Stmt) (q : String × Stmt)
    (hq : q ∈ constPairs nodes) :
    getSimpleAssignmentName q.2 = some q.1 := by
  rcases List.mem_filterMap.mp hq with ⟨n, hn, he⟩
  cases hname : getSimpleAssignmentName n with
  | none => rw [hname] at he; simp at he
  | some nm =>
    rw [hname] at he
    simp only [Option.map_some', Option.some.injEq] at he
    rw [← he]
    exact hname

theorem constPairs_map_fst :
    ∀ (nodes : List Stmt),
      (constPairs nodes).map Prod.fst = nodes.filterMap getSimpleAssignmentName
  | [] => rfl
  | n :: rest => by
    cases hname : getSimpleAssignmentName n with
    | none =>
      simp only [constPairs, List.filterMap_cons, hname, Option.map_none']
      rw [← constPairs, constPairs_map_fst rest]
    | some nm =>
      simp only [constPairs, List.filterMap_cons, hname, Option.map_some',
        List.map_cons]
      rw [← constPairs, constPairs_map_fst rest]

theorem filterMap_name_eq_map_fst :
    ∀ (l : List (String × Stmt)),
      (∀ q ∈ l, getSimpleAssignmentName q.2 = some q.1) →
      l.filterMap (fun q => getSimpleAssignmentName q.2) = l.map Prod.fst
  | [], _ => rfl
  | q :: rest, h => by
    simp only [List.filterMap_cons, h q (by simp), List.map_cons]
    rw [filterMap_name_eq_map_fst rest fun r hr => h r (by simp [hr])]

theorem map_fst_eq_of_map_snd_eq (l1 l2 : List (String × Stmt))
    (h1 : ∀ q ∈ l1, getSimpleAssignmentName q.2 = some q.1)
    (h2 : ∀ q ∈ l2, getSimpleAssignmentName q.2 = some q.1)
    (hsnd : l1.map Prod.snd = l2.map Prod.snd) :
    l1.map Prod.fst = l2.map Prod.fst := by
  have e1 : l1.map Prod.fst
      = (l1.map Prod.snd).filterMap getSimpleAssignmentName := by
    rw [List.filterMap_map]
    exact (filterMap_name_eq_map_fst l1 h1).symm
  have e2 : l2.map Prod.fst
      = (l2.map Prod.snd).filterMap getSimpleAssignmentName := by
    rw [List.filterMap_map]
    exact (filterMap_name_eq_map_fst l2 h2).symm
  rw [e1, e2, hsnd]

theorem filterMap_enum_snd {α β : Type} (F : α → Option β) (l : List α) :
    l.enum.filterMap (fun p => F p.2) = l.filterMap F := by
  have h1 : (l.enum.map Prod.snd).filterMap F
      = l.enum.filterMap (fun p => F p.2) := List.filterMap_map _ _ _
  rw [← h1, List.enum_map_snd]

theorem sortConstantsBlock_spec (nodes : List Stmt)
    (h : ∀ n ∈ nodes, (getSimpleAssignmentName n).isSome) :
    (sortConstantsBlock nodes).length = nodes.length
    ∧ ((sortConstantsBlock nodes).filterMap getSimpleAssignmentName).Perm
        (nodes.filterMap getSimpleAssignmentName)
    ∧ ((sortConstantsBlock nodes).filterMap getSimpleAssignmentName).Sorted
        lowerLe := by
  have hmem : ∀ q ∈ constPairs nodes, getSimpleAssignmentName q.2 = some q.1 :=
    fun q hq => mem_constPairs nodes q hq
  have hperm : (sortedConstPairs nodes).Perm (constPairs nodes) :=
    List.perm_insertionSort pairLowerLe (constPairs nodes)
  have hmemS : ∀ q ∈ sortedConstPairs nodes,
      getSimpleAssignmentName q.2 = some q.1 :=
    fun q hq => hmem q (hperm.mem_iff.mp hq)
  have hfst_sorted : ((sortedConstPairs nodes).map Prod.fst).Sorted lowerLe :=
    List.pairwise_map.mpr
      (List.sorted_insertionSort pairLowerLe (constPairs nodes))
  have hnames : nodes.filterMap getSimpleAssignmentName
      = (constPairs nodes).map Prod.fst := (constPairs_map_fst nodes).symm
  have hplen : (constPairs nodes).length = nodes.length :=
    constPairs_length nodes h
  have hout : (sortConstantsBlock nodes = nodes
        ∧ (sortedConstPairs nodes).map Prod.snd
          = (constPairs nodes).map Prod.snd)
      ∨ ((sortConstantsBlock nodes).length = (sortedConstPairs nodes).length
        ∧ (sortConstantsBlock nodes).filterMap getSimpleAssignmentName
          = (sortedConstPairs nodes).map Prod.fst) := by
    unfold sortConstantsBlock
    dsimp only
    split
    · rename_i hbr
      exact Or.inl ⟨rfl, hbr⟩
    · refine Or.inr ⟨?_, ?_⟩
      · rw [List.length_map, List.enum_length]
      · rw [List.filterMap_map]
        simp only [Function.comp_def, getSimpleAssignmentName_setLeading]
        rw [filterMap_enum_snd (fun q => getSimpleAssignmentName q.2)
          (sortedConstPairs nodes)]
        exact filterMap_name_eq_map_fst (sortedConstPairs nodes) hmemS
  rcases hout with ⟨he, hbr⟩ | ⟨hlen, hfm⟩
  · refine ⟨by rw [he], by rw [he], ?_⟩
    rw [he, hnames,
      map_fst_eq_of_map_snd_eq (constPairs nodes) (sortedConstPairs nodes)
        hmem hmemS hbr.symm]
    exact hfst_sorted
  · refine ⟨?_, ?_, ?_⟩
    · rw [hlen, hperm.length_eq, hplen]
    · rw [hfm, hnames]
      exact hperm.map Prod.fst
    · rw [hfm]
      exact hfst_sorted

theorem reorderWithBlocks_spec :
    ∀ (bs : List (Nat × Nat × List Stmt)) (body : List Stmt),
      (∀ b ∈ bs, b.2.1 = b.1 + b.2.2.length ∧ b.2.1 ≤ body.length
        ∧ (∀ j, j < b.2.2.length → body[b.1 + j]? = b.2.2[j]?)
        ∧ (sortConstantsBlock b.2.2).length = b.2.2.length) →
      bs.Pairwise (fun a c => a.2.1 ≤ c.1) →
      (reorderWithBlocks bs body).length = body.length
      ∧ (∀ i, (∀ b ∈ bs, i < b.1 ∨ b.2.1 ≤ i) →
          (reorderWithBlocks bs body)[i]? = body[i]?)
      ∧ (∀ b ∈ bs, ∀ j, j < b.2.2.length →
          (reorderWithBlocks bs body)[b.1 + j]?
            = (sortConstantsBlock b.2.2)[j]?) := by
  intro bs
  induction bs with
  | nil => exact fun body _ _ => ⟨rfl, fun i _ => rfl, by simp⟩
  | cons b bs ih =>
    intro body hall hpw
    obtain ⟨hb, hpw2⟩ := List.pairwise_cons.mp hpw
    obtain ⟨hbe, hbl, hbs, hbsort⟩ := hall b (by simp)
    obtain ⟨hL, hF, hS⟩ := ih body (fun c hc => hall c (by simp [hc])) hpw2
    have hRb : ∀ j, j < b.2.2.length →
        (reorderWithBlocks bs body)[b.1 + j]? = b.2.2[j]? := by
      intro j hj
      rw [hF (b.1 + j) ?_]
      · exact hbs j hj
      · intro c hcm
        have := hb c hcm
        left
        omega
    have hstep : reorderWithBlocks (b :: bs) body =
        (if sortConstantsBlock b.2.2 = b.2.2 then reorderWithBlocks bs body
         else spliceReplace (reorderWithBlocks bs body) b.1 b.2.1
           (sortConstantsBlock b.2.2)) := rfl
    rw [hstep]
    by_cases hc : sortConstantsBlock b.2.2 = b.2.2
    · rw [if_pos hc]
      refine ⟨hL, ?_, ?_⟩
      · intro i hcond
        exact hF i fun c hcm => hcond c (by simp [hcm])
      · intro c hcm j hj
        rcases List.mem_cons.mp hcm with hcb | hcm
        · subst hcb
          rw [hRb j hj, hc]
        · exact hS c hcm j hj
    · rw [if_neg hc]
      have hse : b.1 ≤ b.2.1 := by omega
      have heR : b.2.1 ≤ (reorderWithBlocks bs body).length := by
        rw [hL]
        exact hbl
      have hns : (sortConstantsBlock b.2.2).length = b.2.1 - b.1 := by omega
      refine ⟨?_, ?_, ?_⟩
      · rw [spliceReplace_length _ _ _ _ hse heR hns, hL]
      · intro i hcond
        rcases hcond b (by simp) with hlt | hge
        · rw [spliceReplace_getElem_lt _ _ _ _ _ hlt (by omega)]
          exact hF i fun c hcm => hcond c (by simp [hcm])
        · rw [spliceReplace_getElem_ge _ _ _ _ _ hse heR hns hge]
          exact hF i fun c hcm => hcond c (by simp [hcm])
      · intro c hcm j hj
        rcases List.mem_cons.mp hcm with hcb | hcm
        · subst hcb
          exact spliceReplace_getElem_slice _ _ _ _ j (by omega) (by omega)
        · have hcge : b.2.1 ≤ c.1 + j := by
            have := hb c hcm
            omega
          rw [spliceReplace_getElem_ge _ _ _ _ _ hse heR hns hcge]
          exact hS c hcm j hj

/-! ## Class method reordering lemmas -/

theorem map_id_on {α : Type} (f : α → α) :
    ∀ l : List α, (∀ a ∈ l, f a = a) → l.map f = l
  | [], _ => rfl
  | a :: t, h => by
    rw [List.map_cons, h a (by simp), map_id_on f t fun x hx => h x (by simp [hx])]

theorem perm_pull {α : Type} (F X Y : List α) (a : α) (h : X.Perm (a :: Y)) :
    (F ++ X).Perm (a :: (F ++ Y)) :=
  (List.Perm.append_left F h).trans List.perm_middle

theorem perm_kind_partition :
    ∀ l : List Stmt,
      (((((l.filter fun s => kindOf s = MKind.dunderKind)
        ++ (l.filter fun s => kindOf s = MKind.classmethodKind))
        ++ (l.filter fun s => kindOf s = MKind.staticmethodKind))
        ++ (l.filter fun s => kindOf s = MKind.propKind))
        ++ (l.filter fun s => kindOf s = MKind.instanceKind)).Perm l
  | [] => by simp
  | s :: t => by
    have IH := perm_kind_partition t
    cases hk : kindOf s with
    | dunderKind =>
      simp only [List.filter_cons, hk]
      simp only [decide_eq_true_eq, reduceIte]
      refine List.Perm.trans ?_ (IH.cons s)
      exact (((List.Perm.refl _).append_right _).append_right _).append_right _
    | classmethodKind =>
      simp only [List.filter_cons, hk]
      simp only [decide_eq_true_eq, reduceIte]
      refine List.Perm.trans ?_ (IH.cons s)
      exact ((List.perm_middle.append_right _).append_right _).append_right _
    | staticmethodKind =>
      simp only [List.filter_cons, hk]
      simp only [decide_eq_true_eq, reduceIte]
      refine List.Perm.trans ?_ (IH.cons s)
      exact (List.perm_middle.append_right _).append_right _
    | propKind =>
      simp only [List.filter_cons, hk]
      simp only [decide_eq_true_eq, reduceIte]
      refine List.Perm.trans ?_ (IH.cons s)
      exact List.perm_middle.append_right _
    | instanceKind =>
      simp only [List.filter_cons, hk]
      simp only [decide_eq_true_eq, reduceIte]
      refine List.Perm.trans ?_ (IH.cons s)
      exact List.perm_middle

theorem orderDunders_perm (ds : List Stmt) : (orderDunders ds).Perm ds := by
  show ((ds.filter fun s => (dunderOrder (stmtName s)).1 ≠ 999).insertionSort
      dunderLe
    ++ (ds.filter fun s => (dunderOrder (stmtName s)).1 = 999).insertionSort
      alphaLe).Perm ds
  have hcompl : (ds.filter fun s => (dunderOrder (stmtName s)).1 = 999)
      = ds.filter fun s => !decide ((dunderOrder (stmtName s)).1 ≠ 999) := by
    apply List.filter_congr'
    intro a _
    simp [decide_not]
  refine List.Perm.trans
    ((List.perm_insertionSort _ _).append (List.perm_insertionSort _ _)) ?_
  rw [hcompl]
  exact List.filter_append_perm _ ds

theorem sortByVisibility_perm (items : List Stmt) :
    (sortByVisibility items).Perm items := by
  show ((items.filter fun s => !isPrivate (stmtName s)).insertionSort alphaLe
    ++ (items.filter fun s => isPrivate (stmtName s)).insertionSort
      alphaLe).Perm items
  have hcompl : (items.filter fun s => isPrivate (stmtName s))
      = items.filter fun s => !(!isPrivate (stmtName s)) := by
    apply List.filter_congr'
    intro a _
    simp
  refine List.Perm.trans
    ((List.perm_insertionSort _ _).append (List.perm_insertionSort _ _)) ?_
  rw [hcompl]
  exact List.filter_append_perm _ items

theorem kindOf_prop_isSome (s : Stmt) (hk : kindOf s = MKind.propKind) :
    (propertyKindOf s).isSome := by
  by_contra hno
  unfold kindOf at hk
  rw [if_neg hno] at hk
  split at hk
  · exact MKind.noConfusion hk
  · split at hk
    · exact MKind.noConfusion hk
    · split at hk
      · exact MKind.noConfusion hk
      · exact MKind.noConfusion hk

theorem propMetas_nodes :
    ∀ ms : List Stmt,
      (propMetas ms).map (fun m => m.2.2)
        = ms.filter fun s => kindOf s = MKind.propKind
  | [] => rfl
  | s :: t => by
    by_cases hk : kindOf s = MKind.propKind
    · obtain ⟨p, hp⟩ :=
        Option.isSome_iff_exists.mp (kindOf_prop_isSome s hk)
      simp only [propMetas, List.filterMap_cons, hk, if_pos, hp,
        Option.map_some', List.map_cons, List.filter_cons, decide_eq_true_eq,
        reduceIte]
      rw [← propMetas, propMetas_nodes t]
    · have h1 : propMetas (s :: t) = propMetas t := by
        unfold propMetas
        rw [List.filterMap_cons, if_neg hk]
      rw [h1, propMetas_nodes t, List.filter_cons, if_neg (by simpa using hk)]

theorem slotPairs_map_snd (g : String × PropSlots) :
    (slotPairs g).map Prod.snd = propGroupToNodes g.2 := by
  rcases g with ⟨b, og, os, od⟩
  cases og <;> cases os <;> cases od <;> rfl

theorem slotPairs_fresh (b : String) (k : PKind) (n : Stmt) :
    slotPairs (b, PropSlots.empty.set k n) = [((b, k), n)] := by
  cases k <;> rfl

theorem slotPairs_set_perm (c : String) (sl : PropSlots) (k : PKind) (n : Stmt)
    (hfree : ((c, k)) ∉ (slotPairs (c, sl)).map Prod.fst) :
    (slotPairs (c, sl.set k n)).Perm (slotPairs (c, sl) ++ [((c, k), n)]) := by
  rcases sl with ⟨og, os, od⟩
  cases k with
  | getter =>
    have hog : og = none := by
      cases hg : og with
      | none => rfl
      | some m =>
        exfalso
        apply hfree
        simp [slotPairs, hg]
    subst hog
    simp only [slotPairs, PropSlots.set, Option.toList_some, Option.toList_none,
      List.map_cons, List.map_nil, List.nil_append, List.cons_append,
      List.singleton_append, List.append_assoc]
    exact (List.perm_append_singleton _ _).symm.trans
      (List.Perm.of_eq (List.append_assoc _ _ _))
  | setter =>
    have hos : os = none := by
      cases hs : os with
      | none => rfl
      | some m =>
        exfalso
        apply hfree
        simp [slotPairs, hs]
    subst hos
    simp only [slotPairs, PropSlots.set, Option.toList_some, Option.toList_none,
      List.map_cons, List.map_nil, List.nil_append, List.append_nil,
      List.cons_append, List.singleton_append, List.append_assoc]
    exact List.Perm.append_left _ (List.perm_append_singleton _ _).symm
  | deleter =>
    have hod : od = none := by
      cases hd : od with
      | none => rfl
      | some m =>
        exfalso
        apply hfree
        simp [slotPairs, hd]
    subst hod
    simp [slotPairs, PropSlots.set]

theorem updatePropGroups_keys (groups : List (String × PropSlots)) (b : String)
    (k : PKind) (n : Stmt) :
    (updatePropGroups groups b k n).map Prod.fst
      = if groups.any (fun g => g.1 = b) then groups.map Prod.fst
        else groups.map Prod.fst ++ [b] := by
  unfold updatePropGroups
  split
  · rw [List.map_map]
    apply List.map_congr_left
    intro g _
    by_cases h : g.1 = b <;> simp [h, Function.comp]
  · simp

theorem updatePropGroups_old_perm :
    ∀ (groups : List (String × PropSlots)) (b : String) (k : PKind) (n : Stmt),
      ((groups.map Prod.fst).Nodup) →
      (groups.any fun g => g.1 = b) = true →
      ((b, k)) ∉ (groups.flatMap slotPairs).map Prod.fst →
      ((groups.map fun g =>
          if g.1 = b then (g.1, g.2.set k n) else g).flatMap slotPairs).Perm
        (groups.flatMap slotPairs ++ [((b, k), n)])
  | [], b, k, n, _, hany, _ => by simp at hany
  | g :: rest, b, k, n, hnodup, hany, hfree => by
    simp only [List.map_cons, List.flatMap_cons, List.map_append,
      List.mem_append, not_or] at hfree ⊢
    by_cases hgb : g.1 = b
    · rw [if_pos hgb]
      have hrest_id : (rest.map fun g2 =>
          if g2.1 = b then (g2.1, g2.2.set k n) else g2) = rest := by
        apply map_id_on
        intro g2 hg2
        have hne : g2.1 ≠ b := by
          intro he
          rw [List.map_cons, List.nodup_cons] at hnodup
          exact hnodup.1 (hgb ▸ he ▸ List.mem_map_of_mem Prod.fst hg2)
        rw [if_neg hne]
      rw [hrest_id]
      have hset : (slotPairs (g.1, g.2.set k n)).Perm
          (slotPairs (g.1, g.2) ++ [((g.1, k), n)]) := by
        apply slotPairs_set_perm
        intro hmem
        exact hfree.1 (by rw [← hgb]; exact hmem)
      have hset2 : (slotPairs (g.1, g.2.set k n)).Perm
          (slotPairs g ++ [((b, k), n)]) := by
        rw [← hgb]
        exact hset
      refine List.Perm.trans (hset2.append_right (rest.flatMap slotPairs)) ?_
      rw [List.append_assoc, List.append_assoc]
      exact List.Perm.append_left _ (List.perm_append_singleton _ _).symm
    · rw [if_neg hgb]
      rw [List.append_assoc]
      apply List.Perm.append_left
      apply updatePropGroups_old_perm rest b k n
      · rw [List.map_cons, List.nodup_cons] at hnodup
        exact hnodup.2
      · simpa [List.any_cons, hgb] using hany
      · exact hfree.2

theorem updatePropGroups_perm (groups : List (String × PropSlots)) (b : String)
    (k : PKind) (n : Stmt) (hnodup : (groups.map Prod.fst).Nodup)
    (hfree : ((b, k)) ∉ (groups.flatMap slotPairs).map Prod.fst) :
    ((updatePropGroups groups b k n).flatMap slotPairs).Perm
      (groups.flatMap slotPairs ++ [((b, k), n)]) := by
  by_cases hany : (groups.any fun g => g.1 = b) = true
  · unfold updatePropGroups
    rw [if_pos hany]
    exact updatePropGroups_old_perm groups b k n hnodup hany hfree
  · unfold updatePropGroups
    rw [if_neg hany, List.flatMap_append]
    simp [slotPairs_fresh]

theorem updatePropGroups_keys_nodup (groups : List (String × PropSlots))
    (b : String) (k : PKind) (n : Stmt)
    (hnodup : (groups.map Prod.fst).Nodup) :
    ((updatePropGroups groups b k n).map Prod.fst).Nodup := by
  rw [updatePropGroups_keys]
  split
  · exact hnodup
  · rename_i hany
    rw [List.nodup_append]
    refine ⟨hnodup, List.nodup_singleton b, ?_⟩
    intro x hx hxb
    simp only [List.mem_singleton] at hxb
    subst hxb
    rcases List.mem_map.mp hx with ⟨g, hg, hge⟩
    exact hany (List.any_eq_true.mpr ⟨g, hg, by simp [hge]⟩)

theorem buildPropGroups_fold_perm :
    ∀ (ms : List (String × PKind × Stmt)) (groups : List (String × PropSlots)),
      (groups.map Prod.fst).Nodup →
      ((groups.flatMap slotPairs).map Prod.fst
        ++ ms.map fun m => (m.1, m.2.1)).Nodup →
      ((ms.foldl (fun gs m => updatePropGroups gs m.1 m.2.1 m.2.2)
          groups).flatMap slotPairs).Perm
        (groups.flatMap slotPairs ++ ms.map fun m => ((m.1, m.2.1), m.2.2))
  | [], groups, _, _ => by simp
  | m :: t, groups, hkeys, hnodup => by
    have hfree : ((m.1, m.2.1)) ∉ (groups.flatMap slotPairs).map Prod.fst := by
      rw [List.nodup_append] at hnodup
      intro hmem
      exact hnodup.2.2 hmem (by simp)
    have hup := updatePropGroups_perm groups m.1 m.2.1 m.2.2 hkeys hfree
    have hkeys2 := updatePropGroups_keys_nodup groups m.1 m.2.1 m.2.2 hkeys
    have hmap := hup.map Prod.fst
    rw [List.map_append] at hmap
    have hperm2 : (((updatePropGroups groups m.1 m.2.1 m.2.2).flatMap
          slotPairs).map Prod.fst ++ t.map fun x => (x.1, x.2.1)).Perm
        ((groups.flatMap slotPairs).map Prod.fst
          ++ (m.1, m.2.1) :: t.map fun x => (x.1, x.2.1)) := by
      refine List.Perm.trans (hmap.append_right _) ?_
      rw [List.append_assoc]
      exact List.Perm.refl _
    have hnodup2 := hperm2.symm.nodup (by simpa using hnodup)
    have IH := buildPropGroups_fold_perm t
      (updatePropGroups groups m.1 m.2.1 m.2.2) hkeys2 hnodup2
    refine List.Perm.trans IH ?_
    refine List.Perm.trans (hup.append_right _) ?_
    rw [List.append_assoc]
    exact List.Perm.refl _

theorem buildPropGroups_keys_nodup_all :
    ∀ (ms : List (String × PKind × Stmt)) (groups : List (String × PropSlots)),
      (groups.map Prod.fst).Nodup →
      (((ms.foldl (fun gs m => updatePropGroups gs m.1 m.2.1 m.2.2)
          groups)).map Prod.fst).Nodup
  | [], groups, h => h
  | m :: t, groups, h =>
    buildPropGroups_keys_nodup_all t _
      (updatePropGroups_keys_nodup groups m.1 m.2.1 m.2.2 h)

theorem filterMap_find_keys :
    ∀ groups : List (String × PropSlots), (groups.map Prod.fst).Nodup →
      (groups.map Prod.fst).filterMap
        (fun b => (groups.find? fun g => g.1 = b).map Prod.snd)
      = groups.map Prod.snd
  | [], _ => rfl
  | g :: rest, hnodup => by
    rw [List.map_cons, List.nodup_cons] at hnodup
    have hfind : ((g :: rest).find? fun g2 => g2.1 = g.1) = some g :=
      List.find?_cons_of_pos _ (by simp)
    simp only [List.map_cons, List.filterMap_cons, hfind, Option.map_some']
    congr 1
    have hcongr : (rest.map Prod.fst).filterMap
        (fun b => (((g :: rest).find? fun g2 => g2.1 = b)).map Prod.snd)
        = (rest.map Prod.fst).filterMap
          (fun b => ((rest.find? fun g2 => g2.1 = b)).map Prod.snd) := by
      apply List.filterMap_congr
      intro b hb
      have hne : ¬ (g.1 = b) := by
        intro he
        exact hnodup.1 (he ▸ hb)
      rw [List.find?_cons_of_neg _ (by simp [hne])]
    rw [hcongr, filterMap_find_keys rest hnodup.2]

theorem orderProps_perm (ms : List (String × PKind × Stmt))
    (h : (ms.map fun m => (m.1, m.2.1)).Nodup) :
    (orderProps ms).Perm (ms.map fun m => m.2.2) := by
  have hkeys : ((buildPropGroups ms).map Prod.fst).Nodup :=
    buildPropGroups_keys_nodup_all ms [] (by simp)
  have hinv : ((buildPropGroups ms).flatMap slotPairs).Perm
      (ms.map fun m => ((m.1, m.2.1), m.2.2)) := by
    have hg := buildPropGroups_fold_perm ms [] (by simp) (by simpa using h)
    simpa using hg
  show ((((buildPropGroups ms).map
      Prod.fst).insertionSort lowerLe).filterMap fun b =>
      ((buildPropGroups ms).find? fun g => g.1 = b).map Prod.snd).flatMap
        propGroupToNodes |>.Perm (ms.map fun m => m.2.2)
  have hks := List.perm_insertionSort lowerLe ((buildPropGroups ms).map Prod.fst)
  have h1 := hks.filterMap
    (fun b => ((buildPropGroups ms).find? fun g => g.1 = b).map Prod.snd)
  rw [filterMap_find_keys _ hkeys] at h1
  refine List.Perm.trans (List.Perm.flatMap_right propGroupToNodes h1) ?_
  have h3 : ((buildPropGroups ms).map Prod.snd).flatMap propGroupToNodes
      = ((buildPropGroups ms).flatMap slotPairs).map Prod.snd := by
    rw [List.flatMap_map, List.map_flatMap]
    simp only [slotPairs_map_snd]
  rw [h3]
  have h4 := hinv.map Prod.snd
  rw [List.map_map] at h4
  exact h4

theorem computeOrderedMethods_perm (methods : List Stmt)
    (h : ((propMetas methods).map fun m => (m.1, m.2.1)).Nodup) :
    (computeOrderedMethods methods).Perm methods := by
  have h1 := orderDunders_perm (methods.filter fun s => kindOf s = MKind.dunderKind)
  have h2 := sortByVisibility_perm
    (methods.filter fun s => kindOf s = MKind.classmethodKind)
  have h3 := sortByVisibility_perm
    (methods.filter fun s => kindOf s = MKind.staticmethodKind)
  have h5 := sortByVisibility_perm
    (methods.filter fun s => kindOf s = MKind.instanceKind)
  have h4 : (orderProps (propMetas methods)).Perm
      (methods.filter fun s => kindOf s = MKind.propKind) := by
    have hp := orderProps_perm (propMetas methods) h
    rw [propMetas_nodes] at hp
    exact hp
  exact ((((h1.append h2).append h3).append h4).append h5).trans
    (perm_kind_partition methods)

theorem foldl_set_shift (s : Stmt) :
    ∀ (pairs : List (Nat × Stmt)) (acc : List Stmt),
      (pairs.map fun p => (p.1 + 1, p.2)).foldl
          (fun l p => l.set p.1 p.2) (s :: acc)
        = s :: pairs.foldl (fun l p => l.set p.1 p.2) acc
  | [], _ => rfl
  | p :: t, acc => by
    simp only [List.map_cons, List.foldl_cons, List.set_cons_succ]
    exact foldl_set_shift s t (acc.set p.1 p.2)

theorem zipWrite_eq_replaceMethods :
    ∀ (body : List Stmt) (os : List Stmt),
      zipWriteMethods body (methodIndices body) os = replaceMethods body os
  | [], os => rfl
  | s :: rest, os => by
    by_cases hm : isMethodNode s
    · cases os with
      | nil =>
        simp only [methodIndices, hm, if_pos, replaceMethods,
          zipWriteMethods, List.zip_nil_right, List.foldl_nil]
      | cons o os2 =>
        simp only [methodIndices, hm, if_pos, replaceMethods, zipWriteMethods]
        rw [List.zip_cons_cons, List.foldl_cons]
        have hz : ((methodIndices rest).map (· + 1)).zip os2
            = ((methodIndices rest).zip os2).map fun p => (p.1 + 1, p.2) := by
          rw [List.zip_map_left]
          rfl
        rw [hz]
        have hset : (s :: rest).set 0 o = o :: rest := rfl
        rw [hset, foldl_set_shift]
        rw [← zipWriteMethods, zipWrite_eq_replaceMethods rest os2]
    · simp only [methodIndices, hm, if_neg, Bool.false_eq_true,
        not_false_iff, replaceMethods, zipWriteMethods]
      have hz : ((methodIndices rest).map (· + 1)).zip os
          = ((methodIndices rest).zip os).map fun p => (p.1 + 1, p.2) := by
        rw [List.zip_map_left]
        rfl
      rw [hz, foldl_set_shift]
      rw [← zipWriteMethods, zipWrite_eq_replaceMethods rest os]

theorem replaceMethods_multiset :
    ∀ (body os : List Stmt), os.length = (body.filter isMethodNode).length →
      (replaceMethods body os : Multiset Stmt)
          + ((body.filter isMethodNode : List Stmt) : Multiset Stmt)
        = (body : Multiset Stmt) + (os : Multiset Stmt)
  | [], os, h => by
    have : os = [] := List.length_eq_zero.mp (by simpa using h)
    subst this
    rfl
  | s :: rest, os, h => by
    by_cases hm : isMethodNode s
    · cases os with
      | nil => simp [List.filter_cons, hm] at h
      | cons o os2 =>
        have hh : os2.length = (rest.filter isMethodNode).length := by
          simp only [List.filter_cons, hm, if_pos, List.length_cons] at h
          omega
        have IH := replaceMethods_multiset rest os2 hh
        have hrw : replaceMethods (s :: rest) (o :: os2)
            = o :: replaceMethods rest os2 := by
          simp [replaceMethods, hm]
        rw [hrw, List.filter_cons, if_pos hm]
        show (o ::ₘ (replaceMethods rest os2 : Multiset Stmt))
            + (s ::ₘ ((rest.filter isMethodNode : List Stmt) : Multiset Stmt))
          = (s ::ₘ (rest : Multiset Stmt)) + (o ::ₘ (os2 : Multiset Stmt))
        rw [Multiset.cons_add, Multiset.add_cons, Multiset.cons_add,
          Multiset.add_cons, IH]
        exact Multiset.cons_swap o s _
    · have hrw : replaceMethods (s :: rest) os = s :: replaceMethods rest os := by
        simp [replaceMethods, hm]
      rw [hrw, List.filter_cons, if_neg (by simpa using hm)]
      have hh : os.length = (rest.filter isMethodNode).length := by
        rw [List.filter_cons, if_neg (by simpa using hm)] at h
        exact h
      have IH := replaceMethods_multiset rest os hh
      show (s ::ₘ (replaceMethods rest os : Multiset Stmt))
          + ((rest.filter isMethodNode : List Stmt) : Multiset Stmt)
        = (s ::ₘ (rest : Multiset Stmt)) + (os : Multiset Stmt)
      rw [Multiset.cons_add, Multiset.cons_add, IH]

theorem replaceMethods_frame :
    ∀ (body os : List Stmt) (i : Nat) (s : Stmt),
      body[i]? = some s → isMethodNode s = false →
      (replaceMethods body os)[i]? = some s
  | [], _, i, s, h, _ => by simp at h
  | s2 :: rest, os, i, s, h, hns => by
    cases i with
    | zero =>
      have hs : s2 = s := by simpa using h
      subst hs
      simp [replaceMethods, hns]
    | succ j =>
      have hj : rest[j]? = some s := by simpa using h
      by_cases hm : isMethodNode s2
      · cases os with
        | nil =>
          simp only [replaceMethods, hm, if_pos]
          simpa using h
        | cons o os2 =>
          simp only [replaceMethods, hm, if_pos, List.getElem?_cons_succ]
          exact replaceMethods_frame rest os2 j s hj hns
      · simp only [replaceMethods, hm, if_neg, Bool.false_eq_true,
          not_false_iff, List.getElem?_cons_succ]
        exact replaceMethods_frame rest os j s hj hns

/-! ## Injector skip-list lemmas -/

theorem mem_pySorted (a : String) (l : List String) (h : a ∈ pySorted l) :
    a ∈ l :=
  (List.perm_insertionSort strLe l).mem_iff.mp h

theorem fold_entries_pred {α : Type} (P : Option String × List String → Prop)
    (step : List (Option String × List String) → α
      → List (Option String × List String)) :
    ∀ l : List α,
      (∀ acc x q, x ∈ l → (∀ r ∈ acc, P r) → q ∈ step acc x → P q) →
      ∀ acc, (∀ r ∈ acc, P r) → ∀ q ∈ l.foldl step acc, P q := by
  intro l
  induction l with
  | nil => exact fun _ acc h q hq => h q hq
  | cons x xs ih =>
    intro hstep acc h q hq
    exact ih (fun acc2 x2 q2 hx2 => hstep acc2 x2 q2 (by simp [hx2]))
      (step acc x) (fun r hr => hstep acc x r (by simp) h hr) q hq

theorem mem_groupUpsert_values (acc : List (Option String × List String))
    (k : Option String) (v : String) :
    ∀ q ∈ groupUpsert acc k v, ∀ x ∈ q.2, (∃ r ∈ acc, x ∈ r.2) ∨ x = v := by
  intro q hq x hx
  unfold groupUpsert at hq
  split at hq
  · rcases List.mem_map.mp hq with ⟨r, hr, he⟩
    by_cases hk : r.1 = k
    · rw [if_pos hk] at he
      rw [← he] at hx
      rcases List.mem_append.mp hx with hx | hx
      · exact Or.inl ⟨r, hr, hx⟩
      · simp only [List.mem_singleton] at hx
        exact Or.inr hx
    · rw [if_neg hk] at he
      exact Or.inl ⟨r, hr, he ▸ hx⟩
  · rcases List.mem_append.mp hq with h | h
    · exact Or.inl ⟨q, h, hx⟩
    · simp only [List.mem_singleton] at h
      subst h
      simp only [List.mem_singleton] at hx
      exact Or.inr hx

theorem buildLocalImports_values (idx : IdxMap)
    (fnl : List (String × List String)) (skip : List String) (qname : String) :
    ∀ p ∈ (buildLocalImports idx fnl skip qname).2, p.2 ∉ skip := by
  intro p hp
  unfold buildLocalImports at hp
  by_cases hn : (fnlGet fnl qname).isEmpty
  · simp [hn] at hp
  · simp only [hn, if_neg, Bool.false_eq_true, not_false_iff] at hp
    rcases List.mem_flatMap.mp hp with ⟨entry, hentry, hmem⟩
    rcases List.mem_map.mp hmem with ⟨nm, hnm, he⟩
    have hstep : ∀ (acc : List (Option String × List String)) (x : String) q,
        x ∈ pySorted (fnlGet fnl qname) →
        (∀ r ∈ acc, ∀ v ∈ r.2, v ∉ skip) →
        q ∈ (if x ∈ skip then acc
          else
            match idxResolve idx x with
            | none => acc
            | some mod =>
              if mod = "typing" then acc else groupUpsert acc (some mod) x) →
        ∀ v ∈ q.2, v ∉ skip := by
      intro acc x q _ hacc hq v hv
      by_cases h1 : x ∈ skip
      · rw [if_pos h1] at hq
        exact hacc q hq v hv
      · rw [if_neg h1] at hq
        cases hr : idxResolve idx x with
        | none =>
          rw [hr] at hq
          exact hacc q hq v hv
        | some mod =>
          rw [hr] at hq
          dsimp only at hq
          by_cases ht : mod = "typing"
          · rw [if_pos ht] at hq
            exact hacc q hq v hv
          · rw [if_neg ht] at hq
            rcases mem_groupUpsert_values acc (some mod) x q hq v hv with
              ⟨r, hrr, hvr⟩ | hvx
            · exact hacc r hrr v hvr
            · exact hvx ▸ h1
    have hent := fold_entries_pred (fun e => ∀ v ∈ e.2, v ∉ skip) _
      (pySorted (fnlGet fnl qname)) hstep [] (by simp) entry hentry
    rw [← he]
    exact hent nm (mem_pySorted nm entry.2 hnm)

theorem buildImportStatements_values (n : String)
    (sub : List (Option String × String)) (hvals : ∀ p ∈ sub, p.2 ≠ n) :
    ∀ st ∈ buildImportStatementsFromPairs sub,
      ∀ (mod2 : Option (List String)) (names2 : List ImportAliasM),
        st = Stmt.line [] [Small.importFrom mod2 names2] →
        ∀ al2 ∈ names2, al2.nm ≠ n := by
  intro st hst mod2 names2 hsteq al2 hal2
  unfold buildImportStatementsFromPairs at hst
  rcases List.mem_filterMap.mp hst with ⟨entry, hentry, he⟩
  have hent : ∀ v ∈ entry.2, v ≠ n := by
    refine fold_entries_pred (fun e => ∀ v ∈ e.2, v ≠ n) _ sub ?_ [] (by simp)
      entry hentry
    intro acc x q hx hacc hq v hv
    rcases mem_groupUpsert_values acc x.1 x.2 q hq v hv with ⟨r, hrr, hvr⟩ | hvx
    · exact hacc r hrr v hvr
    · exact hvx ▸ hvals x hx
  by_cases hemp : entry.2.isEmpty
  · simp [hemp] at he
  · simp only [hemp, if_neg, Bool.false_eq_true, not_false_iff,
      Option.some.injEq] at he
    rw [← he] at hsteq
    have hnames : names2 = (pySorted entry.2).map fun nm => (⟨nm, none⟩ : ImportAliasM) := by
      injection hsteq with h1 h2
      injection h2 with h3 h4
      injection h3 with h5 h6
      exact h6.symm
    rw [hnames] at hal2
    rcases List.mem_map.mp hal2 with ⟨nm, hnm, hale⟩
    rw [← hale]
    exact hent nm (mem_pySorted nm entry.2 hnm)

/-! ## Claim theorems -/

/-- Claim C1: the pipeline is claimed idempotent for every source text and
option set.  The relocate-imports operation pass refutes this: on the
program (from pkg import Foo ; x: Foo = None) the first application moves
the import under a fresh TYPE_CHECKING block, and the second application
prunes that block empty and creates a duplicate block, so applying the
pass twice differs from applying it once. -/
theorem C1_operation_relocate_pass_not_idempotent :
    opApply c1Input = Except.ok c1Once ∧
    (opApply c1Input).bind opApply = Except.ok c1Twice ∧
    (opApply c1Input).bind opApply ≠ opApply c1Input := by decide

/-- Claim C2, counterexample: the name C carries a class-level hint (the
class attribute annotation x: C) and a runtime-call hint (the C() call
inside the nested function), yet the relocate pass injects a local import
of C into the outer function body, so the import does not stay at module
scope only. -/
theorem C2_counterexample :
    "C" ∈ c2State.usedInCAnnot ∧
    "C" ∈ fnlAllNames c2State.fnl ∧
    utilsApply c2Input = c2Output ∧
    aliasCountInFunctions "C" c2Input = 0 ∧
    aliasCountInFunctions "C" c2Output = 1 := by decide

/-- Claim C2, amended: the guarantee holds for the names the collector
actually records as class-level used (the used_in_B bucket, which feeds
the rewriter keep-filter and the localizer skip list), not for names whose
only class-level trace is an annotation.  For a used_in_B name: the
module-level from-import filter keeps its alias, the injector never
schedules it for any function, and no import statement built from any
subset of the scheduled pairs carries an alias of that name.  (A name
whose class hint is only an attribute annotation lands in the annotation
bucket instead and can be localized; see the counterexample.) -/
theorem C2_used_in_B_names_stay_module_scope
    (usedInB namesToRemove : List String) (module : Option (List String))
    (names : List ImportAliasM) (al : ImportAliasM)
    (idx : IdxMap) (fnl : List (String × List String)) (qname : String)
    (n : String)
    (hal : al ∈ names) (hB : al.asname.getD al.nm ∈ usedInB)
    (hnB : n ∈ usedInB) :
    (∃ kept, rewriteImportFrom usedInB namesToRemove module names
        = some (Small.importFrom module kept) ∧ al ∈ kept)
    ∧ (∀ p ∈ (buildLocalImports idx fnl usedInB qname).2, p.2 ≠ n)
    ∧ (∀ sub : List (Option String × String),
        (∀ p ∈ sub, p ∈ (buildLocalImports idx fnl usedInB qname).2) →
        ∀ st ∈ buildImportStatementsFromPairs sub,
          ∀ (mod2 : Option (List String)) (names2 : List ImportAliasM),
            st = Stmt.line [] [Small.importFrom mod2 names2] →
            ∀ al2 ∈ names2, al2.nm ≠ n) := by
  refine ⟨?_, ?_, ?_⟩
  · unfold rewriteImportFrom
    have hkeep : al ∈ names.filter fun al2 =>
        let aliasIdent := al2.asname.getD al2.nm
        if flattenModule module = some "typing" && al2.nm ≠ "TYPE_CHECKING"
          then true
        else if aliasIdent ∈ usedInB then true
        else !(aliasIdent ∈ namesToRemove) := by
      rw [List.mem_filter]
      refine ⟨hal, ?_⟩
      dsimp only
      split <;> simp [hB]
    refine ⟨_, ?_, hkeep⟩
    rw [if_neg ?_]
    intro hemp
    rw [List.isEmpty_iff] at hemp
    rw [hemp] at hkeep
    simp at hkeep
  · intro p hp he
    exact buildLocalImports_values idx fnl usedInB qname p hp (he ▸ hnB)
  · intro sub hsub st hst mod2 names2 hsteq al2 hal2
    refine buildImportStatements_values n sub ?_ st hst mod2 names2 hsteq al2 hal2
    intro p hp he
    exact buildLocalImports_values idx fnl usedInB qname p (hsub p hp) (he ▸ hnB)

/-- Witness for the amended C2 theorem at a concrete import and schedule. -/
theorem C2_witness :
    (∃ kept, rewriteImportFrom ["C"] ["C"] (some ["pkg"]) [⟨"C", none⟩]
        = some (Small.importFrom (some ["pkg"]) kept) ∧ (⟨"C", none⟩ : ImportAliasM) ∈ kept)
    ∧ (∀ p ∈ (buildLocalImports [("C", (some "pkg", none))] [("f", ["C"])]
        ["C"] "f").2, p.2 ≠ "C") := by
  have h := C2_used_in_B_names_stay_module_scope ["C"] ["C"] (some ["pkg"])
    [⟨"C", none⟩] ⟨"C", none⟩ [("C", (some "pkg", none))] [("f", ["C"])] "f" "C"
    (by decide) (by decide) (by decide)
  exact ⟨h.1, h.2.1⟩

/-- Claim C3: on a name used exclusively in a parameter annotation the
claim promises removal from the module import list and a guarded-block
import.  The collector does classify Foo as annotation-only, but the
driver computes empty removal and TYPE_CHECKING sets (every imported name
is marked runtime-used by the Name tokens of its own import statement),
so the pass returns the module unchanged: no name is ever moved under the
guarded block. -/
theorem C3_type_only_name_left_at_module_scope :
    c3State.usedInCAnnot = ["Foo"] ∧
    c3State.fnl = [] ∧ c3State.usedInB = [] ∧ c3State.castAnywhere = [] ∧
    namesToRemoveFromModule c3Input = [] ∧
    usedInCOnlyFinal c3Input = [] ∧
    utilsApply c3Input = c3Input := by decide

/-- Claim C4, counterexample: on malformed input the constants-ordering
pass propagates the parse failure out of preview_source_change instead of
returning the original text. -/
theorem C4_counterexample :
    orderConstantsPreview (.malformed "def f(:") = .error .parseFailure ∧
    orderConstantsPreview (.malformed "def f(:") ≠ .ok .unchangedOriginal := by
  decide

/-- Claim C4, amended: on every malformed input the relocate-imports
operation returns the original text unchanged (its parse call is guarded),
while the constants-ordering pass lets the parse exception escape. -/
theorem C4_only_guarded_passes_fail_open (raw : String) :
    relocateImportsPreview (.malformed raw) = .ok .unchangedOriginal ∧
    orderConstantsPreview (.malformed raw) = .error .parseFailure :=
  ⟨rfl, rfl⟩

/-- Claim C5, counterexample: on the spec example input the pass does not
produce the promised text (module import removed, local import inserted,
annotation dropped); nothing in either relocate implementation drops a
return annotation, and the option pass changes nothing at all on this
input. -/
theorem C5_counterexample : utilsApply c5Input ≠ c5ClaimedOutput := by decide

/-- Claim C5, amended: on the spec example input the relocate pass
returns the text unchanged, and a second run produces no further change.
(The operation variant raises instead: its usage collector pops an empty
stack when leaving the function definition.) -/
theorem C5_spec_example_input_is_left_unchanged :
    utilsApply c5Input = c5Input ∧
    utilsApply (utilsApply c5Input) = utilsApply c5Input ∧
    opApply c5Input = Except.error () := by decide

/-- Claim C6: the local import injector is claimed to insert one grouped
statement per origin module at the top of each function needing
runtime-local names.  The collector schedules Foo for function f and the
builder would emit the import, but leave_FunctionDef computes the
qualified name with the function still on its stack (f.f), which never
matches the collector key, so nothing is ever inserted and the module is
returned unchanged. -/
theorem C6_injector_never_inserts :
    fnlGet c6State.fnl "f" = ["Foo"] ∧
    (buildLocalImports (buildParserImportIndex c6Input) c6State.fnl
      c6State.usedInB "f").1 ≠ [] ∧
    utilsApply c6Input = c6Input := by decide

/-- Claim C7, counterexample: the inline usage classifier of the
operation records the attribute tail: on the annotation x.Foo with Foo
imported, the walk returns Foo although the left-most base is x, and Foo
is recorded as an annotation usage of the module. -/
theorem C7_counterexample :
    opWalkExprForNames ["Foo"] (.attr (.ename "x") "Foo") = ["Foo"] ∧
    specLeftmostBases (.attr (.ename "x") "Foo") = ["x"] ∧
    opUsedInCAnnot c7Input = ["Foo"] := by decide

mutual

/-- Helper for C7: every name produced by the walk is a left-most base. -/
theorem walk_only_bases (imported : List String) :
    ∀ (e : Expr) (n : String), n ∈ walkExprForNames imported e →
      n ∈ specLeftmostBases e ∧ n ∈ imported
  | .ename s, n, h => by
    by_cases hs : s ∈ imported
    · simp only [walkExprForNames, if_pos hs, List.mem_singleton] at h
      subst h
      exact ⟨by simp [specLeftmostBases], hs⟩
    · simp [walkExprForNames, hs] at h
  | .attr v f, n, h => by
    have ih := walk_only_bases imported v n (by simpa [walkExprForNames] using h)
    exact ⟨by simpa [specLeftmostBases] using ih.1, ih.2⟩
  | .call f args, n, h => by
    simp only [walkExprForNames, List.mem_append] at h
    simp only [specLeftmostBases, List.mem_append]
    rcases h with h | h
    · have ih := walk_only_bases imported f n h
      exact ⟨Or.inl ih.1, ih.2⟩
    · have ih := walkList_only_bases imported args n h
      exact ⟨Or.inr ih.1, ih.2⟩
  | .subscript v slices, n, h => by
    simp only [walkExprForNames, List.mem_append] at h
    simp only [specLeftmostBases, List.mem_append]
    rcases h with h | h
    · have ih := walk_only_bases imported v n h
      exact ⟨Or.inl ih.1, ih.2⟩
    · have ih := walkList_only_bases imported slices n h
      exact ⟨Or.inr ih.1, ih.2⟩
  | .binop l r, n, h => by
    simp only [walkExprForNames, List.mem_append] at h
    simp only [specLeftmostBases, List.mem_append]
    rcases h with h | h
    · have ih := walk_only_bases imported l n h
      exact ⟨Or.inl ih.1, ih.2⟩
    · have ih := walk_only_bases imported r n h
      exact ⟨Or.inr ih.1, ih.2⟩
  | .listExpr elements, n, h => by
    have ih := walkList_only_bases imported elements n
      (by simpa [walkExprForNames] using h)
    exact ⟨by simpa [specLeftmostBases] using ih.1, ih.2⟩
  | .simpleString s, n, h => by simp [walkExprForNames] at h

/-- List companion of walk_only_bases. -/
theorem walkList_only_bases (imported : List String) :
    ∀ (es : List Expr) (n : String), n ∈ walkExprListForNames imported es →
      n ∈ specLeftmostBasesList es ∧ n ∈ imported
  | [], n, h => by simp [walkExprListForNames] at h
  | e :: rest, n, h => by
    simp only [walkExprListForNames, List.mem_append] at h
    simp only [specLeftmostBasesList, List.mem_append]
    rcases h with h | h
    · have ih := walk_only_bases imported e n h
      exact ⟨Or.inl ih.1, ih.2⟩
    · have ih := walkList_only_bases imported rest n h
      exact ⟨Or.inr ih.1, ih.2⟩

end

/-- Claim C7, amended: in the utils usage collector the expression walk
matches only left-most base names against the imported-name index: every
name it records is a left-most base occurrence and an imported name, so
an attribute tail is never matched there.  (The inline collector of the
operation file, by contrast, matches the tail; see the counterexample.) -/
theorem C7_utils_walk_matches_only_leftmost_bases
    (imported : List String) (e : Expr) (n : String)
    (h : n ∈ walkExprForNames imported e) :
    n ∈ specLeftmostBases e ∧ n ∈ imported :=
  walk_only_bases imported e n h

/-- Witness for the amended C7 theorem at a concrete attribute access. -/
theorem C7_witness :
    "X" ∈ walkExprForNames ["X"] (.attr (.ename "X") "Y") ∧
    "X" ∈ specLeftmostBases (.attr (.ename "X") "Y") ∧ "X" ∈ ["X"] := by
  refine ⟨by decide, ?_⟩
  have h := C7_utils_walk_matches_only_leftmost_bases ["X"]
    (.attr (.ename "X") "Y") "X" (by decide)
  exact ⟨h.1, h.2⟩

/-- Fold preservation of a key predicate over grouped dictionaries, with
membership of the folded element available to the step property. -/
theorem fold_keys_pred {α : Type} (P : Option String → Prop)
    (step : List (Option String × List String) → α → List (Option String × List String)) :
    ∀ (l : List α),
      (∀ acc x q, x ∈ l → (∀ r ∈ acc, P r.1) → q ∈ step acc x → P q.1) →
      ∀ acc, (∀ r ∈ acc, P r.1) → ∀ q ∈ l.foldl step acc, P q.1 := by
  intro l
  induction l with
  | nil => exact fun _ acc h q hq => h q hq
  | cons x xs ih =>
    intro hstep acc h q hq
    exact ih (fun acc2 x2 q2 hx2 => hstep acc2 x2 q2 (by simp [hx2]))
      (step acc x) (fun r hr => hstep acc x r (by simp) h hr) q hq

/-- Keys appearing after a groupUpsert: an old key or the inserted one. -/
theorem mem_groupUpsert_key (acc : List (Option String × List String))
    (k : Option String) (v : String) :
    ∀ q ∈ groupUpsert acc k v, (∃ r ∈ acc, q.1 = r.1) ∨ q.1 = k := by
  intro q hq
  unfold groupUpsert at hq
  split at hq
  · rcases List.mem_map.mp hq with ⟨r, hr, he⟩
    left
    refine ⟨r, hr, ?_⟩
    by_cases hk : r.1 = k
    · rw [if_pos hk] at he
      rw [← he]
    · rw [if_neg hk] at he
      rw [← he]
  · rcases List.mem_append.mp hq with h | h
    · exact Or.inl ⟨q, h, rfl⟩
    · simp at h
      subst h
      exact Or.inr rfl

/-- Helper for C10: every module key grouped by _build_local_imports is a
present, non-typing module. -/
theorem buildLocalImports_pairs_keys (idx : IdxMap)
    (fnl : List (String × List String)) (skip : List String) (qname : String) :
    ∀ p ∈ (buildLocalImports idx fnl skip qname).2,
      ∃ m, p.1 = some m ∧ m ≠ "typing" := by
  intro p hp
  unfold buildLocalImports at hp
  by_cases hn : (fnlGet fnl qname).isEmpty
  · simp [hn] at hp
  · simp only [hn, if_neg, Bool.false_eq_true, not_false_iff] at hp
    rcases List.mem_flatMap.mp hp with ⟨entry, hentry, hmem⟩
    rcases List.mem_map.mp hmem with ⟨n, _, he⟩
    have hstep : ∀ (acc : List (Option String × List String)) (x : String) q,
        x ∈ pySorted (fnlGet fnl qname) →
        (∀ r ∈ acc, ∃ m, r.1 = some m ∧ m ≠ "typing") →
        q ∈ (if x ∈ skip then acc
          else
            match idxResolve idx x with
            | none => acc
            | some mod =>
              if mod = "typing" then acc else groupUpsert acc (some mod) x) →
        ∃ m, q.1 = some m ∧ m ≠ "typing" := by
      intro acc x q _ hacc hq
      by_cases h1 : x ∈ skip
      · rw [if_pos h1] at hq
        exact hacc q hq
      · rw [if_neg h1] at hq
        cases hr : idxResolve idx x with
        | none =>
          rw [hr] at hq
          exact hacc q hq
        | some mod =>
          rw [hr] at hq
          dsimp only at hq
          by_cases ht : mod = "typing"
          · rw [if_pos ht] at hq
            exact hacc q hq
          · rw [if_neg ht] at hq
            rcases mem_groupUpsert_key acc (some mod) x q hq with ⟨r, hrr, hqe⟩ | hqe
            · exact hqe ▸ hacc r hrr
            · exact ⟨mod, hqe, ht⟩
    have hkey := fold_keys_pred (fun k => ∃ m, k = some m ∧ m ≠ "typing") _
      (pySorted (fnlGet fnl qname)) hstep [] (by simp) entry hentry
    rw [← he]
    exact hkey

/-- Claim C10: the local import injector never constructs an import whose
origin module is absent or typing.  Every (module, name) pair scheduled by
_build_local_imports carries a present non-typing module, and every
statement built from a subset of those pairs (the injected statements are
built from pairs_to_add, a subset) is a from-import with a present,
non-typing module expression. -/
theorem C10_injected_imports_have_real_nontyping_module
    (idx : IdxMap) (fnl : List (String × List String)) (skip : List String)
    (qname : String) (sub : List (Option String × String))
    (hsub : ∀ p ∈ sub, p ∈ (buildLocalImports idx fnl skip qname).2) :
    (∀ p ∈ (buildLocalImports idx fnl skip qname).2,
      ∃ m, p.1 = some m ∧ m ≠ "typing") ∧
    (∀ st ∈ buildImportStatementsFromPairs sub,
      ∃ m names, st = Stmt.line [] [Small.importFrom (some (splitDots m)) names]
        ∧ m ≠ "typing") := by
  refine ⟨buildLocalImports_pairs_keys idx fnl skip qname, ?_⟩
  intro st hst
  unfold buildImportStatementsFromPairs at hst
  rcases List.mem_filterMap.mp hst with ⟨entry, hentry, he⟩
  have hkey : ∃ m, entry.1 = some m ∧ m ≠ "typing" := by
    refine fold_keys_pred (fun k => ∃ m, k = some m ∧ m ≠ "typing") _
      sub ?_ [] (by simp) entry hentry
    intro acc x q hx hacc hq
    rcases mem_groupUpsert_key acc x.1 x.2 q hq with ⟨r, hrr, hqe⟩ | hqe
    · exact hqe ▸ hacc r hrr
    · rcases buildLocalImports_pairs_keys idx fnl skip qname x (hsub x hx)
        with ⟨m, hm, ht⟩
      exact ⟨m, hqe ▸ hm, ht⟩
  rcases hkey with ⟨m, hm, ht⟩
  by_cases hemp : entry.2.isEmpty
  · simp [hemp] at he
  · simp only [hemp, if_neg, Bool.false_eq_true, not_false_iff, Option.some.injEq] at he
    refine ⟨m, (pySorted entry.2).map fun n => ⟨n, none⟩, ?_, ht⟩
    rw [← he]
    simp [buildModuleExpr, hm]

/-- Witness for C10 at a concrete schedule. -/
theorem C10_witness :
    (∀ p ∈ (buildLocalImports [("Foo", (some "pkg", none))] [("f", ["Foo"])]
      [] "f").2, ∃ m, p.1 = some m ∧ m ≠ "typing") ∧
    (∀ st ∈ buildImportStatementsFromPairs [(some "pkg", "Foo")],
      ∃ m names, st = Stmt.line [] [Small.importFrom (some (splitDots m)) names]
        ∧ m ≠ "typing") :=
  C10_injected_imports_have_real_nontyping_module
    [("Foo", (some "pkg", none))] [("f", ["Foo"])] [] "f"
    [(some "pkg", "Foo")] (by decide)

/-- Claim C8: the constant-sorting pass sorts only the marked blocks and
leaves everything else byte-identical.  For every statement list: the pass
preserves length; every index outside the found flagged blocks holds the
original statement; and every found block starts with a statement carrying
the opt-in marker, is replaced in place by its sorted form, whose
assignment names are a permutation of the original names and are sorted
case-insensitively.  Unmarked candidate blocks are never found (every
found block is flagged), so they sit outside the found ranges and are
returned untouched. -/
theorem C8_pass_sorts_only_marked_blocks (body : List Stmt) :
    (reorderFlaggedBody body).length = body.length
    ∧ (∀ i, (∀ b ∈ findFlaggedConstantBlocks body, i < b.1 ∨ b.2.1 ≤ i) →
        (reorderFlaggedBody body)[i]? = body[i]?)
    ∧ (∀ b ∈ findFlaggedConstantBlocks body,
        stmtHasFlag b.2.2.headI = true
        ∧ (∀ j, j < b.2.2.length →
            (reorderFlaggedBody body)[b.1 + j]? = (sortConstantsBlock b.2.2)[j]?)
        ∧ ((sortConstantsBlock b.2.2).filterMap getSimpleAssignmentName).Perm
            (b.2.2.filterMap getSimpleAssignmentName)
        ∧ ((sortConstantsBlock b.2.2).filterMap getSimpleAssignmentName).Sorted
            lowerLe) := by
  have hbounds := findBlocks_bounds body
  have hpw : (findFlaggedConstantBlocks body).Pairwise
      (fun a c => a.2.1 ≤ c.1) :=
    findFlaggedAux_pairwise body.length body 0
  have hall : ∀ b ∈ findFlaggedConstantBlocks body,
      b.2.1 = b.1 + b.2.2.length ∧ b.2.1 ≤ body.length
      ∧ (∀ j, j < b.2.2.length → body[b.1 + j]? = b.2.2[j]?)
      ∧ (sortConstantsBlock b.2.2).length = b.2.2.length := by
    intro b hbm
    obtain ⟨h1, h2, h3, h4, h5, h6⟩ := hbounds b hbm
    exact ⟨h1, h2, h3, (sortConstantsBlock_spec b.2.2 h6).1⟩
  have hmain := reorderWithBlocks_spec (findFlaggedConstantBlocks body)
    body hall hpw
  refine ⟨hmain.1, hmain.2.1, ?_⟩
  intro b hbm
  obtain ⟨h1, h2, h3, h4, h5, h6⟩ := hbounds b hbm
  have hsb := sortConstantsBlock_spec b.2.2 h6
  exact ⟨h5, hmain.2.2 b hbm, hsb.2.1, hsb.2.2⟩

/-- Witness for C8 on the two identical blocks of the spec example: the
unmarked block at index 0 is returned untouched and the marked block at
index 2 is replaced by its sorted form. -/
theorem C8_witness :
    (reorderFlaggedBody c8Body)[0]? = c8Body[0]?
    ∧ (reorderFlaggedBody c8Body)[2 + 0]? = (sortConstantsBlock c8Block)[0]?
    ∧ stmtHasFlag c8Block.headI = true := by
  have h := C8_pass_sorts_only_marked_blocks c8Body
  have hm := h.2.2 (2, 4, c8Block) (by decide)
  exact ⟨h.2.1 0 (by decide), hm.2.1 0 (by decide), hm.1⟩

/-- Claim C9, counterexample: with two property getters sharing the base
name p, the second getter overwrites the first in the property-group map,
the ordered method list comes up one node short, and the zip write leaves
the tail position untouched: getter A disappears and method z is
duplicated, so the reordered body is not a permutation of the original
body. -/
theorem C9_counterexample :
    reorderClassMethods c9Class = c9ClassOut ∧
    ¬ List.Perm (reorderClassBody [c9GetterA, c9GetterB, c9MethodZ])
        [c9GetterA, c9GetterB, c9MethodZ] := by decide

/-- Claim C9, amended: whenever the property accessors of the class body
carry pairwise distinct (base name, accessor kind) pairs, the reordering
pass only permutes the method nodes among their original positions: every
non-method statement keeps its exact index, the reordered body is a
permutation of the original body, and when the computed order equals the
original method order the body is returned unchanged.  (Duplicate pairs
break the permutation property; see the counterexample.) -/
theorem C9_reorder_is_method_permutation (body : List Stmt)
    (hnodup : ((propMetas (body.filter isMethodNode)).map
      fun m => (m.1, m.2.1)).Nodup) :
    (∀ (i : Nat) (s : Stmt), body[i]? = some s → isMethodNode s = false →
      (reorderClassBody body)[i]? = some s)
    ∧ (reorderClassBody body).Perm body
    ∧ (computeOrderedMethods (body.filter isMethodNode)
        = body.filter isMethodNode → reorderClassBody body = body) := by
  unfold reorderClassBody
  dsimp only
  by_cases hemp : (body.filter isMethodNode).isEmpty = true
  · rw [if_pos hemp]
    exact ⟨fun i s h _ => h, List.Perm.refl body, fun _ => rfl⟩
  · rw [if_neg hemp]
    by_cases hord : computeOrderedMethods (body.filter isMethodNode)
        = body.filter isMethodNode
    · rw [if_pos hord]
      exact ⟨fun i s h _ => h, List.Perm.refl body, fun _ => rfl⟩
    · rw [if_neg hord]
      rw [zipWrite_eq_replaceMethods body
        (computeOrderedMethods (body.filter isMethodNode))]
      have hperm := computeOrderedMethods_perm (body.filter isMethodNode) hnodup
      have hlen := hperm.length_eq
      refine ⟨?_, ?_, fun hc => absurd hc hord⟩
      · intro i s h hns
        exact replaceMethods_frame body _ i s h hns
      · have hms := replaceMethods_multiset body
          (computeOrderedMethods (body.filter isMethodNode)) hlen
        rw [← Multiset.coe_eq_coe]
        have hco : ((computeOrderedMethods (body.filter isMethodNode) :
              List Stmt) : Multiset Stmt)
            = ((body.filter isMethodNode : List Stmt) : Multiset Stmt) :=
          Multiset.coe_eq_coe.mpr hperm
        rw [hco] at hms
        exact add_right_cancel hms

/-- Witness for the amended C9 theorem: a body with a plain line, one
getter and one method keeps the line at index 0 and permutes the body. -/
theorem C9_witness :
    (reorderClassBody c9WBody)[0]? = some (Stmt.line [] [Small.passStmt])
    ∧ (reorderClassBody c9WBody).Perm c9WBody := by
  have h := C9_reorder_is_method_permutation c9WBody (by decide)
  exact ⟨h.1 0 (Stmt.line [] [Small.passStmt]) (by decide) (by decide), h.2.1⟩

end FilestatePython
